import Mathlib

/-!
Verification of the `pattie` sparse-tensor library (COO tensors,
tensor-times-matrix multiplication, quick-sort of COO rows, fiber
grouping, axis identity, text reader) against its natural-language
specification.  The Rust sources are shallowly embedded as executable
Lean definitions; machine integers are modelled as `Int`/`Nat`,
fallible code returns `Except`/`Option`, and non-terminating recursion
is modelled with explicit fuel (`none` = the source diverges).
-/

namespace Pattie

/-! ## Axis (`src/structs/axis/axis.rs`, `src/structs/axis/builder.rs`)

An axis is an identity-bearing half-open interval.  The builder mints a
fresh identity from a process-wide monotonic counter
(`builder.rs`, `COUNTER.fetch_add(1)`); we pass the counter state
explicitly.  Rust `PartialEq`/`Hash` on `Axis` use the identity alone
(`axis.rs`, `impl PartialEq`/`impl Hash`). -/

structure Axis where
  id : Nat
  label : Option String
  lower : Int
  upper : Int
deriving Repr, DecidableEq

/-- `impl PartialEq for Axis`: equality is by identity alone. -/
def axisBeq (a b : Axis) : Bool := a.id == b.id

/-- `impl Hash for Axis`: the hash input is the identity alone. -/
def axisHash (a : Axis) : Nat := a.id

/-- Rust `Clone` of an `Axis` preserves the identity (it clones the
handle, not the underlying allocation). -/
def axisClone (a : Axis) : Axis := a

/-- `Axis::len`: `upper - lower`, clamped to zero. -/
def axisLen (a : Axis) : Int :=
  if a.lower < a.upper then a.upper - a.lower else 0

/-- `AxisBuilder::build`: mints a fresh identity from the monotonic
counter and returns the new counter state. -/
def buildAxis (label : Option String) (lower upper : Int) (counter : Nat) :
    Axis × Nat :=
  ({ id := counter, label := label, lower := lower, upper := upper }, counter + 1)

/-- `Axis::clone_with_label`: same range, new label, fresh identity. -/
def clone_with_label (a : Axis) (label : String) (counter : Nat) : Axis × Nat :=
  buildAxis (some label) a.lower a.upper counter

/-- `Axis::clone_with_range`: same label, new range, fresh identity. -/
def clone_with_range (a : Axis) (lower upper : Int) (counter : Nat) : Axis × Nat :=
  buildAxis a.label lower upper counter

/-- `Axis::extend`: hull of the two ranges, no label, fresh identity. -/
def extendAxis (a b : Axis) (counter : Nat) : Axis × Nat :=
  buildAxis none (min a.lower b.lower) (max a.upper b.upper) counter

/-- `Axis::intersect`: meet of the two ranges, no label, fresh identity. -/
def intersectAxis (a b : Axis) (counter : Nat) : Axis × Nat :=
  buildAxis none (max a.lower b.lower) (min a.upper b.upper) counter

end Pattie

namespace Pattie

/-- C9: axis equality and hashing are by identity alone: a clone is equal
to the original; two independently built axes are unequal even with equal
labels and ranges; `clone_with_label`, `clone_with_range`, `extend` and
`intersect` all mint identities unequal to every previously built axis
(any axis whose id precedes the current counter), with `extend` the range
hull and `intersect` the meet. -/
theorem axis_identity_semantics
    (a b : Axis) (l1 l2 : Option String) (lo1 hi1 lo2 hi2 : Int)
    (s : String) (c : Nat) (hc : a.id < c) :
    axisBeq (axisClone a) a = true ∧
    axisHash (axisClone a) = axisHash a ∧
    (axisBeq ((buildAxis l1 lo1 hi1 c).1)
        ((buildAxis l2 lo2 hi2 (buildAxis l1 lo1 hi1 c).2).1) = false) ∧
    axisBeq ((clone_with_label b s c).1) a = false ∧
    axisBeq ((clone_with_range b lo1 hi1 c).1) a = false ∧
    axisBeq ((extendAxis a b c).1) a = false ∧
    axisBeq ((intersectAxis a b c).1) a = false ∧
    ((extendAxis a b c).1.lower = min a.lower b.lower ∧
      (extendAxis a b c).1.upper = max a.upper b.upper) ∧
    ((intersectAxis a b c).1.lower = max a.lower b.lower ∧
      (intersectAxis a b c).1.upper = min a.upper b.upper) := by
  refine ⟨by simp [axisBeq, axisClone], rfl, ?_, ?_, ?_, ?_, ?_, ⟨rfl, rfl⟩, ⟨rfl, rfl⟩⟩
  · simp [axisBeq, buildAxis]
  all_goals
    simp only [axisBeq, clone_with_label, clone_with_range, extendAxis,
      intersectAxis, buildAxis, beq_eq_false_iff_ne, ne_eq]
    omega

/-- Witness for `axis_identity_semantics` at concrete axes: two axes with
ids 0 and 1, counter 7. -/
theorem axis_identity_semantics_witness :
    axisBeq (axisClone ⟨0, none, 2, 9⟩) ⟨0, none, 2, 9⟩ = true ∧
    axisHash (axisClone ⟨0, none, 2, 9⟩) = axisHash ⟨0, none, 2, 9⟩ ∧
    (axisBeq ((buildAxis none 2 9 7).1)
        ((buildAxis none 2 9 (buildAxis none 2 9 7).2).1) = false) ∧
    axisBeq ((clone_with_label ⟨1, none, 0, 4⟩ "x" 7).1) ⟨0, none, 2, 9⟩ = false ∧
    axisBeq ((clone_with_range ⟨1, none, 0, 4⟩ 2 9 7).1) ⟨0, none, 2, 9⟩ = false ∧
    axisBeq ((extendAxis ⟨0, none, 2, 9⟩ ⟨1, none, 0, 4⟩ 7).1) ⟨0, none, 2, 9⟩ = false ∧
    axisBeq ((intersectAxis ⟨0, none, 2, 9⟩ ⟨1, none, 0, 4⟩ 7).1) ⟨0, none, 2, 9⟩ = false ∧
    ((extendAxis ⟨0, none, 2, 9⟩ ⟨1, none, 0, 4⟩ 7).1.lower = min 2 0 ∧
      (extendAxis ⟨0, none, 2, 9⟩ ⟨1, none, 0, 4⟩ 7).1.upper = max 9 4) ∧
    ((intersectAxis ⟨0, none, 2, 9⟩ ⟨1, none, 0, 4⟩ 7).1.lower = max 2 0 ∧
      (intersectAxis ⟨0, none, 2, 9⟩ ⟨1, none, 0, 4⟩ 7).1.upper = min 9 4) :=
  axis_identity_semantics ⟨0, none, 2, 9⟩ ⟨1, none, 0, 4⟩ none none 2 9 0 4 "x" 7
    (by decide)

end Pattie

namespace Pattie

/-! ## Quick-sort of COO rows (`src/algos/tensor/coo_sort.rs`)

`SortCOOTensor::execute` sorts the rows of `indices` together with the
leading axis of `values`.  The recursion of `sort_subtensor` is not
well-founded (its base case is `from >= to` and it recurses on `(i, to)`
which can equal `(from, to)`), so the embedding takes explicit fuel and
returns `none` when the source would recurse forever. -/

/-- Row-`indices`/`values` pair being sorted (the jagged storage of the
tensor handed to `sort_subtensor` via `raw_data_mut`). -/
structure SortState (VT : Type) where
  indices : List (List Int)
  values : List VT
deriving Repr, DecidableEq

/-- `index_less_than`: a row is less than another iff every compared
position (in the order of the sort key) is strictly less; it returns
`false` at the first non-strict column. -/
def index_less_than (order : List Nat) (a b : List Int) : Bool :=
  order.all fun i => decide (a.getD i 0 < b.getD i 0)

/-- Row `i` of the index matrix (rows out of range read as `[]`;
the source would panic there, which no claim exercises). -/
def rowAt (s : SortState VT) (i : Nat) : List Int :=
  s.indices.getD i []

/-- Swap entries `i` and `j` of a list (the element-wise `uswap` loop of
the source amounts to swapping whole rows). -/
def swapList (l : List α) (i j : Nat) (d : α) : List α :=
  (l.set i (l.getD j d)).set j (l.getD i d)

/-- Swap row `i` and row `j` of both `indices` and `values`. -/
def swapRows [Inhabited VT] (s : SortState VT) (i j : Nat) : SortState VT :=
  { indices := swapList s.indices i j [], values := swapList s.values i j default }

/-- The `while index_less_than(order, row(i), row(pivot)) { i += 1 }`
scan, fuelled. -/
def scanI (order : List Nat) (s : SortState VT) (pivot : Nat) :
    Nat → Nat → Option Nat
  | 0, _ => none
  | fuel + 1, i =>
    if index_less_than order (rowAt s i) (rowAt s pivot) then
      scanI order s pivot fuel (i + 1)
    else
      some i

/-- The `while index_less_than(order, row(j), row(pivot)) { j -= 1 }`
scan, fuelled. -/
def scanJ (order : List Nat) (s : SortState VT) (pivot : Nat) :
    Nat → Nat → Option Nat
  | 0, _ => none
  | fuel + 1, j =>
    if index_less_than order (rowAt s j) (rowAt s pivot) then
      scanJ order s pivot fuel (j - 1)
    else
      some j

/-- The Hoare-partition `while i < j` loop of `sort_subtensor`, fuelled.
Returns the final state together with the final `i` and `j`. -/
def partitionLoop [Inhabited VT] (order : List Nat) :
    Nat → SortState VT → Nat → Nat → Nat →
    Option (SortState VT × Nat × Nat)
  | 0, _, _, _, _ => none
  | fuel + 1, s, i, j, pivot =>
    if i < j then
      match scanI order s pivot fuel i with
      | none => none
      | some i2 =>
        match scanJ order s pivot fuel j with
        | none => none
        | some j2 =>
          if i2 < j2 then
            let pivot2 := if pivot = i2 then j2 else if pivot = j2 then i2 else pivot
            partitionLoop order fuel (swapRows s i2 j2) (i2 + 1) (j2 - 1) pivot2
          else
            some (s, i2, j2)
    else
      some (s, i, j)

/-- `sort_subtensor(indices, values, order, from, to)`, fuelled; `none`
models non-termination of the source recursion. -/
def sort_subtensor [Inhabited VT] (order : List Nat) :
    Nat → SortState VT → Nat → Nat → Option (SortState VT)
  | 0, _, _, _ => none
  | fuel + 1, s, lo, hi =>
    if lo ≥ hi then
      some s
    else
      match partitionLoop order fuel s lo (hi - 1) ((lo + hi) / 2) with
      | none => none
      | some (s2, i, j) =>
        match sort_subtensor order fuel s2 lo j with
        | none => none
        | some s3 => sort_subtensor order fuel s3 i hi

/-- `SortCOOTensor::execute`: records the sort order on the tensor, then
runs `sort_subtensor` over `[0, values.len())`.  Returns the sorted state
and the recorded `sparse_sort_order`, or `none` if the source diverges. -/
def sortExecute [Inhabited VT] (order : List Nat) (fuel : Nat)
    (s : SortState VT) : Option (SortState VT × List Nat) :=
  match sort_subtensor order fuel s 0 s.values.length with
  | none => none
  | some s2 => some (s2, order)

/-- Unfolding equation of `sort_subtensor` for a non-trivial range. -/
theorem sort_subtensor_succ [Inhabited VT] (order : List Nat) (f : Nat)
    (s : SortState VT) (lo hi : Nat) (h : ¬ lo ≥ hi) :
    sort_subtensor order (f + 1) s lo hi =
      match partitionLoop order f s lo (hi - 1) ((lo + hi) / 2) with
      | none => none
      | some (s2, i, j) =>
        match sort_subtensor order f s2 lo j with
        | none => none
        | some s3 => sort_subtensor order f s3 i hi := by
  simp only [sort_subtensor, h, if_false]

/-- Any call `sort_subtensor(_, _, _, lo, lo+1)` (a range holding exactly
one row) recurses into itself and never returns: the code's base case is
`from >= to`, not `to - from < 2`. -/
theorem sort_subtensor_singleton_diverges [Inhabited VT]
    (order : List Nat) (lo : Nat) :
    ∀ (fuel : Nat) (s : SortState VT),
      sort_subtensor order fuel s lo (lo + 1) = none := by
  intro fuel
  induction fuel with
  | zero => intro s; rfl
  | succ f ih =>
    intro s
    have hlt : ¬ lo ≥ lo + 1 := by omega
    rw [sort_subtensor_succ order f s lo (lo + 1) hlt]
    rcases f with _ | g
    · rfl
    · have hij : ¬ lo < lo := by omega
      have hstep : partitionLoop order (g + 1) s lo (lo + 1 - 1)
          ((lo + (lo + 1)) / 2) = some (s, lo, lo) := by
        simp [partitionLoop, hij]
      rw [hstep]
      show (match sort_subtensor order (g + 1) s lo lo with
        | none => none
        | some s3 => sort_subtensor order (g + 1) s3 lo (lo + 1)) = none
      have hbase : sort_subtensor order (g + 1) s lo lo = some s := by
        simp [sort_subtensor]
      rw [hbase]
      exact ih s

end Pattie

namespace Pattie

/-- C5: `SortCOOTensor::execute` does not terminate on a tensor with a
single block: for every fuel the model returns `none`, because
`sort_subtensor(0, 1)` recurses into `(i, to) = (0, 1)` again (the base
case is `from >= to` instead of the specified `to - from < 2`). -/
theorem sort_execute_one_block_never_returns
    (order : List Nat) (s : SortState Int) (h : s.values.length = 1) :
    ∀ fuel, sortExecute order fuel s = none := by
  intro fuel
  have h1 : sort_subtensor order fuel s 0 1 = none :=
    sort_subtensor_singleton_diverges order 0 fuel s
  unfold sortExecute
  rw [h, h1]

/-- Witness for `sort_execute_one_block_never_returns`: a concrete
one-block tensor. -/
theorem sort_execute_one_block_never_returns_witness :
    (SortState.mk [[5]] [7] : SortState Int).values.length = 1 ∧
    sortExecute [0] 9 (SortState.mk [[5]] [7] : SortState Int) = none :=
  ⟨rfl, sort_execute_one_block_never_returns [0] ⟨[[5]], [7]⟩ rfl 9⟩

/-- The Hoare partition of the two-row state `[[0,1],[1,0]]` (already in
lexicographic order for key `[0, 1]`) swaps the two rows and exits with
`i = 1`, `j = 0`, for every sufficient fuel. -/
theorem partition_swaps_sorted_pair (n : Nat) :
    partitionLoop [0, 1] (n + 2) (⟨[[0, 1], [1, 0]], [10, 20]⟩ : SortState Int)
      0 1 1 =
    some (⟨[[1, 0], [0, 1]], [20, 10]⟩, 1, 0) := by
  have hscanI : scanI [0, 1] (⟨[[0, 1], [1, 0]], [10, 20]⟩ : SortState Int) 1
      (n + 1) 0 = some 0 := by
    have h1 : index_less_than [0, 1]
        (rowAt (⟨[[0, 1], [1, 0]], [10, 20]⟩ : SortState Int) 0)
        (rowAt (⟨[[0, 1], [1, 0]], [10, 20]⟩ : SortState Int) 1) = false := by
      decide
    simp [scanI, h1]
  have hscanJ : scanJ [0, 1] (⟨[[0, 1], [1, 0]], [10, 20]⟩ : SortState Int) 1
      (n + 1) 1 = some 1 := by
    have h2 : index_less_than [0, 1]
        (rowAt (⟨[[0, 1], [1, 0]], [10, 20]⟩ : SortState Int) 1)
        (rowAt (⟨[[0, 1], [1, 0]], [10, 20]⟩ : SortState Int) 1) = false := by
      decide
    simp [scanJ, h2]
  have hswap : swapRows (⟨[[0, 1], [1, 0]], [10, 20]⟩ : SortState Int) 0 1 =
      (⟨[[1, 0], [0, 1]], [20, 10]⟩ : SortState Int) := by
    decide
  show partitionLoop [0, 1] ((n + 1) + 1) _ 0 1 1 = _
  simp only [partitionLoop, hscanI, hscanJ, hswap]
  norm_num

/-- C4: on the two-block tensor with rows `[[0,1],[1,0]]` (which is
already sorted under the lexicographic key `[axis 0, axis 1]`),
`SortCOOTensor::execute` never returns — so no sorted-output
postcondition can hold — and the comparison predicate
`index_less_than`, which demands strictness in every key column,
cannot order these two rows in either direction. -/
theorem sort_execute_pair_diverges_and_not_lex :
    (∀ fuel,
      sortExecute [0, 1] fuel (⟨[[0, 1], [1, 0]], [10, 20]⟩ : SortState Int)
        = none) ∧
    index_less_than [0, 1] [0, 1] [1, 0] = false ∧
    index_less_than [0, 1] [1, 0] [0, 1] = false := by
  refine ⟨?_, by decide, by decide⟩
  intro fuel
  have hs : ∀ f, sort_subtensor [0, 1] f
      (⟨[[0, 1], [1, 0]], [10, 20]⟩ : SortState Int) 0 2 = none := by
    intro f
    match f with
    | 0 => rfl
    | 1 => rfl
    | 2 => rfl
    | m + 3 =>
      have hlt : ¬ (0 : Nat) ≥ 2 := by omega
      have hrw := sort_subtensor_succ [0, 1] (m + 2)
        (⟨[[0, 1], [1, 0]], [10, 20]⟩ : SortState Int) 0 2 hlt
      show sort_subtensor [0, 1] ((m + 2) + 1) _ 0 2 = none
      rw [hrw]
      show (match partitionLoop [0, 1] (m + 2)
          (⟨[[0, 1], [1, 0]], [10, 20]⟩ : SortState Int) 0 1 1 with
        | none => none
        | some (s2, i, j) =>
          match sort_subtensor [0, 1] (m + 2) s2 0 j with
          | none => none
          | some s3 => sort_subtensor [0, 1] (m + 2) s3 i 2) = none
      rw [partition_swaps_sorted_pair m]
      show (match sort_subtensor [0, 1] (m + 2)
          (⟨[[1, 0], [0, 1]], [20, 10]⟩ : SortState Int) 0 0 with
        | none => none
        | some s3 => sort_subtensor [0, 1] (m + 2) s3 1 2) = none
      have hbase : sort_subtensor [0, 1] (m + 2)
          (⟨[[1, 0], [0, 1]], [20, 10]⟩ : SortState Int) 0 0 =
          some (⟨[[1, 0], [0, 1]], [20, 10]⟩ : SortState Int) := by
        simp [sort_subtensor]
      rw [hbase]
      exact sort_subtensor_singleton_diverges [0, 1] 1 (m + 2)
        (⟨[[1, 0], [0, 1]], [20, 10]⟩ : SortState Int)
  unfold sortExecute
  rw [show (⟨[[0, 1], [1, 0]], [10, 20]⟩ : SortState Int).values.length = 2
    from rfl, hs fuel]

end Pattie

namespace Pattie

/-! ## Fiber grouping (`compute_indices` in
`src/algos/tensor_matrix/coo_mul_dense.rs`, identically in
`scoo_mul_dense.rs`)

A single linear scan over the rows of `indices`: a row opens a new fiber
iff there is no current fiber or it differs from the row that opened the
current fiber in some column other than the common one.  `n` is the
number of index columns, `k` the common-axis column. -/

/-- `index_eq_except_axis`: row equality on every column except column
`k`. -/
def indexEqExceptAxis (n k : Nat) (a b : List Int) : Bool :=
  (List.range n).all fun i => decide (i = k) || decide (a.getD i 0 = b.getD i 0)

/-- `copy_index_except_axis`: the row with column `k` removed. -/
def copy_index_except_axis (row : List Int) (k : Nat) : List Int :=
  row.take k ++ row.drop (k + 1)

/-- The fiber-opening condition of the scan: no current fiber, or the
row differs from the current fiber's opening row outside column `k`. -/
def opensNewFiber (n k : Nat) (lastRow : Option (List Int)) (row : List Int) :
    Bool :=
  match lastRow with
  | none => true
  | some lr => !(indexEqExceptAxis n k lr row)

/-- The scan loop of `compute_indices`: `lastRow` is the row that opened
the current fiber (`last_index` in the source), `i` the current row
number.  Returns (`out_indices` rows, fiber-opening positions). -/
def compute_indices_go (n k : Nat) :
    Option (List Int) → Nat → List (List Int) → List (List Int) × List Nat
  | _, _, [] => ([], [])
  | lastRow, i, row :: rest =>
    if opensNewFiber n k lastRow row then
      let p := compute_indices_go n k (some row) (i + 1) rest
      (copy_index_except_axis row k :: p.1, i :: p.2)
    else
      compute_indices_go n k lastRow (i + 1) rest

/-- `compute_indices`: the full grouper; appends the final offset `M`
(`fiber_offsets.push(num_blocks)`). -/
def compute_indices (n k : Nat) (rows : List (List Int)) :
    List (List Int) × List Nat :=
  let p := compute_indices_go n k none 0 rows
  (p.1, p.2 ++ [rows.length])

theorem indexEqExceptAxis_iff {n k : Nat} {a b : List Int} :
    indexEqExceptAxis n k a b = true ↔
      ∀ i, i < n → i ≠ k → a.getD i 0 = b.getD i 0 := by
  simp only [indexEqExceptAxis, List.all_eq_true, List.mem_range,
    Bool.or_eq_true, decide_eq_true_eq]
  constructor
  · intro h i hi hik
    rcases h i hi with h' | h'
    · exact absurd h' hik
    · exact h'
  · intro h i hi
    by_cases hik : i = k
    · exact Or.inl hik
    · exact Or.inr (h i hi hik)

theorem indexEqExceptAxis_refl {n k : Nat} {a : List Int} :
    indexEqExceptAxis n k a a = true :=
  indexEqExceptAxis_iff.mpr fun _ _ _ => rfl

theorem copy_index_except_axis_getElem? {row : List Int} {k : Nat}
    (hk : k < row.length) (j : Nat) :
    (copy_index_except_axis row k)[j]? =
      if j < k then row[j]? else row[j + 1]? := by
  unfold copy_index_except_axis
  by_cases hj : j < k
  · rw [if_pos hj, List.getElem?_append_left, List.getElem?_take_of_lt hj]
    rw [List.length_take]
    omega
  · rw [if_neg hj, List.getElem?_append_right, List.getElem?_drop]
    · congr 1
      rw [List.length_take]
      omega
    · rw [List.length_take]
      omega

theorem copy_index_except_axis_length {row : List Int} {k : Nat}
    (hk : k < row.length) :
    (copy_index_except_axis row k).length = row.length - 1 := by
  unfold copy_index_except_axis
  rw [List.length_append, List.length_take, List.length_drop]
  omega

theorem indexEqExceptAxis_iff_copy_eq {n k : Nat} {a b : List Int}
    (ha : a.length = n) (hb : b.length = n) (hk : k < n) :
    indexEqExceptAxis n k a b = true ↔
      copy_index_except_axis a k = copy_index_except_axis b k := by
  rw [indexEqExceptAxis_iff]
  constructor
  · intro h
    apply List.ext_getElem?
    intro j
    rw [copy_index_except_axis_getElem? (by omega),
      copy_index_except_axis_getElem? (by omega)]
    by_cases hj : j < k
    · rw [if_pos hj, if_pos hj]
      by_cases hjn : j < n
      · rw [List.getElem?_eq_getElem (by omega), List.getElem?_eq_getElem (by omega)]
        have := h j hjn (by omega)
        rw [List.getD_eq_getElem a 0 (by omega), List.getD_eq_getElem b 0 (by omega)] at this
        rw [this]
      · rw [List.getElem?_eq_none (by omega), List.getElem?_eq_none (by omega)]
    · rw [if_neg hj, if_neg hj]
      by_cases hjn : j + 1 < n
      · rw [List.getElem?_eq_getElem (by omega), List.getElem?_eq_getElem (by omega)]
        have := h (j + 1) hjn (by omega)
        rw [List.getD_eq_getElem a 0 (by omega), List.getD_eq_getElem b 0 (by omega)] at this
        rw [this]
      · rw [List.getElem?_eq_none (by omega), List.getElem?_eq_none (by omega)]
  · intro h i hi hik
    have hj : ∀ j : Nat, (copy_index_except_axis a k)[j]? = (copy_index_except_axis b k)[j]? := by
      intro j
      rw [h]
    rw [List.getD_eq_getElem a 0 (by omega), List.getD_eq_getElem b 0 (by omega)]
    by_cases hcase : i < k
    · have := hj i
      rw [copy_index_except_axis_getElem? (by omega),
        copy_index_except_axis_getElem? (by omega), if_pos hcase, if_pos hcase,
        List.getElem?_eq_getElem (by omega), List.getElem?_eq_getElem (by omega)]
        at this
      exact Option.some.inj this
    · have hik' : k < i := by omega
      have := hj (i - 1)
      rw [copy_index_except_axis_getElem? (by omega),
        copy_index_except_axis_getElem? (by omega), if_neg (by omega),
        if_neg (by omega), show i - 1 + 1 = i by omega,
        List.getElem?_eq_getElem (by omega), List.getElem?_eq_getElem (by omega)]
        at this
      exact Option.some.inj this

end Pattie

namespace Pattie

/-- The row counter `i` only shifts the recorded offsets. -/
theorem compute_indices_go_shift (n k : Nat) (last : Option (List Int))
    (i : Nat) (rows : List (List Int)) :
    compute_indices_go n k last i rows =
      ((compute_indices_go n k last 0 rows).1,
       (compute_indices_go n k last 0 rows).2.map (· + i)) := by
  induction rows generalizing last i with
  | nil => simp [compute_indices_go]
  | cons row rest ih =>
    by_cases h : opensNewFiber n k last row = true
    · simp only [compute_indices_go, h, if_pos]
      rw [ih (some row) (i + 1), ih (some row) (0 + 1)]
      simp only [List.map_cons, List.map_map, Nat.zero_add]
      refine congrArg₂ Prod.mk rfl ?_
      congr 1
      apply List.map_congr_left
      intro a _
      simp only [Function.comp_apply]
      omega
    · simp only [compute_indices_go, h, if_neg, Bool.false_eq_true,
        not_false_iff, if_false]
      rw [ih last (i + 1), ih last (0 + 1)]
      simp only [List.map_map, Nat.zero_add]
      refine congrArg₂ Prod.mk rfl ?_
      apply List.map_congr_left
      intro a _
      simp only [Function.comp_apply]
      omega

theorem compute_indices_go_len (n k : Nat) (last : Option (List Int))
    (rows : List (List Int)) :
    (compute_indices_go n k last 0 rows).2.length =
      (compute_indices_go n k last 0 rows).1.length := by
  induction rows generalizing last with
  | nil => rfl
  | cons row rest ih =>
    by_cases h : opensNewFiber n k last row = true
    · simp only [compute_indices_go, h, if_pos]
      rw [compute_indices_go_shift n k (some row) (0 + 1) rest]
      simp [ih (some row)]
    · simp only [compute_indices_go, h, Bool.false_eq_true, not_false_iff,
        if_false]
      rw [compute_indices_go_shift n k last (0 + 1) rest]
      simp [ih last]

theorem compute_indices_go_bound (n k : Nat) (last : Option (List Int))
    (rows : List (List Int)) :
    ∀ x ∈ (compute_indices_go n k last 0 rows).2, x < rows.length := by
  induction rows generalizing last with
  | nil => simp [compute_indices_go]
  | cons row rest ih =>
    by_cases h : opensNewFiber n k last row = true
    · simp only [compute_indices_go, h, if_pos]
      rw [compute_indices_go_shift n k (some row) (0 + 1) rest]
      intro x hx
      simp only [List.mem_cons, List.mem_map] at hx
      rcases hx with hx | ⟨y, hy, rfl⟩
      · simp [hx]
      · have := ih (some row) y hy
        simp only [List.length_cons]
        omega
    · simp only [compute_indices_go, h, Bool.false_eq_true, not_false_iff,
        if_false]
      rw [compute_indices_go_shift n k last (0 + 1) rest]
      intro x hx
      simp only [List.mem_map] at hx
      rcases hx with ⟨y, hy, rfl⟩
      have := ih last y hy
      simp only [List.length_cons]
      omega

theorem compute_indices_go_sorted (n k : Nat) (last : Option (List Int))
    (rows : List (List Int)) :
    List.Pairwise (· < ·) (compute_indices_go n k last 0 rows).2 := by
  induction rows generalizing last with
  | nil => simp [compute_indices_go]
  | cons row rest ih =>
    by_cases h : opensNewFiber n k last row = true
    · simp only [compute_indices_go, h, if_pos]
      rw [compute_indices_go_shift n k (some row) (0 + 1) rest]
      refine List.pairwise_cons.mpr ⟨?_, ?_⟩
      · intro x hx
        simp only [List.mem_map] at hx
        rcases hx with ⟨y, _, rfl⟩
        omega
      · rw [List.pairwise_map]
        refine (ih (some row)).imp ?_
        intro a b hab
        omega
    · simp only [compute_indices_go, h, Bool.false_eq_true, not_false_iff,
        if_false]
      rw [compute_indices_go_shift n k last (0 + 1) rest]
      rw [List.pairwise_map]
      refine (ih last).imp ?_
      intro a b hab
      omega

theorem compute_indices_go_outs (n k : Nat) (last : Option (List Int))
    (rows : List (List Int)) :
    (compute_indices_go n k last 0 rows).1 =
      (compute_indices_go n k last 0 rows).2.map
        (fun p => copy_index_except_axis (rows.getD p []) k) := by
  induction rows generalizing last with
  | nil => rfl
  | cons row rest ih =>
    by_cases h : opensNewFiber n k last row = true
    · simp only [compute_indices_go, h, if_pos]
      rw [compute_indices_go_shift n k (some row) (0 + 1) rest]
      simp only [List.map_cons, List.map_map]
      rw [ih (some row)]
      refine congrArg₂ _ rfl ?_
      apply List.map_congr_left
      intro a _
      simp [Function.comp, Nat.zero_add]
    · simp only [compute_indices_go, h, Bool.false_eq_true, not_false_iff,
        if_false]
      rw [compute_indices_go_shift n k last (0 + 1) rest]
      simp only [List.map_map]
      rw [ih last]
      apply List.map_congr_left
      intro a _
      simp [Function.comp, Nat.zero_add]

end Pattie

namespace Pattie

theorem getD_map_add_one (l : List Nat) (j : Nat) (hj : j < l.length) :
    (l.map (· + 1)).getD j 0 = l.getD j 0 + 1 := by
  rw [List.getD_eq_getElem _ _ (by simpa using hj),
    List.getD_eq_getElem _ _ hj, List.getElem_map]

theorem pairwise_lt_first_le (l : List Nat) (h : List.Pairwise (· < ·) l) :
    ∀ x ∈ l, l.getD 0 0 ≤ x := by
  match l with
  | [] => intro x hx; cases hx
  | a :: t =>
    intro x hx
    rcases List.mem_cons.mp hx with rfl | hx
    · exact Nat.le_refl _
    · have := (List.pairwise_cons.mp h).1 x hx
      simp only [List.getD_cons_zero]
      omega

/-- Every row before the first recorded opening agrees (outside column
`k`) with the row `lr` that opened the fiber current at entry. -/
theorem compute_indices_go_open_fiber (n k : Nat) (rows : List (List Int)) :
    ∀ (lr : List Int) (m : Nat), m < rows.length →
      (∀ off ∈ (compute_indices_go n k (some lr) 0 rows).2, m < off) →
      indexEqExceptAxis n k lr (rows.getD m []) = true := by
  induction rows with
  | nil => intro lr m hm; simp at hm
  | cons row rest ih =>
    intro lr m hm hoff
    by_cases h : opensNewFiber n k (some lr) row = true
    · exfalso
      simp only [compute_indices_go, h, if_pos] at hoff
      exact absurd (hoff 0 (List.mem_cons_self _ _)) (by omega)
    · have heq : indexEqExceptAxis n k lr row = true := by
        simpa [opensNewFiber] using h
      simp only [compute_indices_go, h, Bool.false_eq_true, not_false_iff,
        if_false] at hoff
      rw [compute_indices_go_shift n k (some lr) (0 + 1) rest] at hoff
      match m with
      | 0 => simpa using heq
      | m' + 1 =>
        apply ih lr m' (by simpa using hm)
        intro off' hoff'
        have := hoff (off' + (0 + 1)) (List.mem_map_of_mem _ hoff')
        omega

/-- The first recorded opening (if any) differs from the entry row `lr`
outside column `k`. -/
theorem compute_indices_go_first_boundary (n k : Nat)
    (rows : List (List Int)) :
    ∀ lr : List Int, (compute_indices_go n k (some lr) 0 rows).2 ≠ [] →
      indexEqExceptAxis n k lr
        (rows.getD ((compute_indices_go n k (some lr) 0 rows).2.getD 0 0) [])
        = false := by
  induction rows with
  | nil => intro lr hne; simp [compute_indices_go] at hne
  | cons row rest ih =>
    intro lr hne
    by_cases h : opensNewFiber n k (some lr) row = true
    · have heq : indexEqExceptAxis n k lr row = false := by
        simpa [opensNewFiber] using h
      simp only [compute_indices_go, h, if_pos, List.getD_cons_zero]
      simpa using heq
    · have hoffs :
          (compute_indices_go n k (some lr) 0 (row :: rest)).2 =
            (compute_indices_go n k (some lr) 0 rest).2.map (· + (0 + 1)) := by
        simp only [compute_indices_go, h, Bool.false_eq_true, not_false_iff,
          if_false]
        rw [compute_indices_go_shift n k (some lr) (0 + 1) rest]
      rw [hoffs] at hne ⊢
      have hne' : (compute_indices_go n k (some lr) 0 rest).2 ≠ [] := by
        intro hcon
        rw [hcon] at hne
        exact hne rfl
      have hlen : 0 < (compute_indices_go n k (some lr) 0 rest).2.length :=
        List.length_pos.mpr hne'
      have hm : ((compute_indices_go n k (some lr) 0 rest).2.map (· + (0 + 1))).getD 0 0
          = (compute_indices_go n k (some lr) 0 rest).2.getD 0 0 + 1 := by
        simpa using getD_map_add_one _ 0 hlen
      rw [hm, List.getD_cons_succ]
      exact ih lr hne'

end Pattie

namespace Pattie

/-- Every row in the half-open span between two consecutive recorded
openings (or between the last opening and the end) agrees, outside
column `k`, with the row at the opening position. -/
theorem compute_indices_go_fiber_agree (n k : Nat) (rows : List (List Int)) :
    ∀ (last : Option (List Int)) (f m : Nat),
      f < (compute_indices_go n k last 0 rows).2.length →
      (compute_indices_go n k last 0 rows).2.getD f 0 ≤ m →
      m < (if f + 1 < (compute_indices_go n k last 0 rows).2.length
           then (compute_indices_go n k last 0 rows).2.getD (f + 1) 0
           else rows.length) →
      indexEqExceptAxis n k
        (rows.getD ((compute_indices_go n k last 0 rows).2.getD f 0) [])
        (rows.getD m []) = true := by
  induction rows with
  | nil =>
    intro last f m hf _ _
    simp [compute_indices_go] at hf
  | cons row rest ih =>
    intro last f m hf hlo hhi
    by_cases h : opensNewFiber n k last row = true
    · have hoffs :
          (compute_indices_go n k last 0 (row :: rest)).2 =
            0 :: (compute_indices_go n k (some row) 0 rest).2.map (· + (0 + 1)) := by
        simp only [compute_indices_go, h, if_pos]
        rw [compute_indices_go_shift n k (some row) (0 + 1) rest]
      rw [hoffs] at hf hlo hhi ⊢
      simp only [List.length_cons, List.length_map] at hf hhi
      match f with
      | 0 =>
        simp only [List.getD_cons_zero] at hlo ⊢
        match m with
        | 0 => simpa using indexEqExceptAxis_refl
        | m' + 1 =>
          have hsides :
              (∀ off ∈ (compute_indices_go n k (some row) 0 rest).2, m' < off) ∧
              m' < rest.length := by
            by_cases hL : 0 < (compute_indices_go n k (some row) 0 rest).2.length
            · rw [if_pos (by omega)] at hhi
              have hget1 : (0 :: (compute_indices_go n k (some row) 0 rest).2.map
                  (· + (0 + 1))).getD (0 + 1) 0 =
                  (compute_indices_go n k (some row) 0 rest).2.getD 0 0 + 1 := by
                rw [List.getD_cons_succ]
                simpa using getD_map_add_one _ 0 hL
              rw [hget1] at hhi
              have h0mem : (compute_indices_go n k (some row) 0 rest).2.getD 0 0 ∈
                  (compute_indices_go n k (some row) 0 rest).2 := by
                rw [List.getD_eq_getElem _ _ hL]
                exact List.getElem_mem _
              have h0lt := compute_indices_go_bound n k (some row) rest _ h0mem
              refine ⟨?_, by omega⟩
              intro off hoff
              have := pairwise_lt_first_le _
                (compute_indices_go_sorted n k (some row) rest) off hoff
              omega
            · rw [if_neg (by omega)] at hhi
              refine ⟨?_, by omega⟩
              intro off hoff
              exact absurd (List.length_pos.mpr (List.ne_nil_of_mem hoff)) hL
          simp only [List.getD_cons_succ]
          exact compute_indices_go_open_fiber n k rest row m' hsides.2 hsides.1
      | f' + 1 =>
        simp only [List.getD_cons_succ] at hlo hhi ⊢
        have hf' : f' < (compute_indices_go n k (some row) 0 rest).2.length := by
          omega
        have hgetf : ((compute_indices_go n k (some row) 0 rest).2.map
            (· + (0 + 1))).getD f' 0 =
            (compute_indices_go n k (some row) 0 rest).2.getD f' 0 + 1 := by
          simpa using getD_map_add_one _ f' (by simpa using hf')
        rw [hgetf] at hlo ⊢
        match m with
        | 0 => omega
        | m' + 1 =>
          simp only [List.getD_cons_succ]
          have hhi' : m' < (if f' + 1 <
              (compute_indices_go n k (some row) 0 rest).2.length
            then (compute_indices_go n k (some row) 0 rest).2.getD (f' + 1) 0
            else rest.length) := by
            by_cases hc : f' + 1 < (compute_indices_go n k (some row) 0 rest).2.length
            · rw [if_pos hc]
              rw [if_pos (by omega)] at hhi
              have hgetf1 : ((compute_indices_go n k (some row) 0 rest).2.map
                  (· + (0 + 1))).getD (f' + 1) 0 =
                  (compute_indices_go n k (some row) 0 rest).2.getD (f' + 1) 0 + 1 := by
                simpa using getD_map_add_one _ (f' + 1) (by simpa using hc)
              rw [hgetf1] at hhi
              omega
            · rw [if_neg hc]
              rw [if_neg (by omega)] at hhi
              omega
          have := ih (some row) f' m' hf' (by omega) hhi'
          simpa using this
    · have hlr : ∃ lr, last = some lr := by
        match last with
        | none => simp [opensNewFiber] at h
        | some lr => exact ⟨lr, rfl⟩
      rcases hlr with ⟨lr, rfl⟩
      have hoffs :
          (compute_indices_go n k (some lr) 0 (row :: rest)).2 =
            (compute_indices_go n k (some lr) 0 rest).2.map (· + (0 + 1)) := by
        simp only [compute_indices_go, h, Bool.false_eq_true, not_false_iff,
          if_false]
        rw [compute_indices_go_shift n k (some lr) (0 + 1) rest]
      rw [hoffs] at hf hlo hhi ⊢
      simp only [List.length_map] at hf hhi
      have hgetf : ((compute_indices_go n k (some lr) 0 rest).2.map
          (· + (0 + 1))).getD f 0 =
          (compute_indices_go n k (some lr) 0 rest).2.getD f 0 + 1 := by
        simpa using getD_map_add_one _ f (by simpa using hf)
      rw [hgetf] at hlo ⊢
      match m with
      | 0 => omega
      | m' + 1 =>
        simp only [List.getD_cons_succ]
        have hhi' : m' < (if f + 1 <
            (compute_indices_go n k (some lr) 0 rest).2.length
          then (compute_indices_go n k (some lr) 0 rest).2.getD (f + 1) 0
          else rest.length) := by
          by_cases hc : f + 1 < (compute_indices_go n k (some lr) 0 rest).2.length
          · rw [if_pos hc]
            rw [if_pos (by omega)] at hhi
            have hgetf1 : ((compute_indices_go n k (some lr) 0 rest).2.map
                (· + (0 + 1))).getD (f + 1) 0 =
                (compute_indices_go n k (some lr) 0 rest).2.getD (f + 1) 0 + 1 := by
              simpa using getD_map_add_one _ (f + 1) (by simpa using hc)
            rw [hgetf1] at hhi
            omega
          · rw [if_neg hc]
            rw [if_neg (by omega)] at hhi
            simp only [List.length_cons] at hhi
            omega
        have := ih (some lr) f m' hf (by omega) hhi'
        simpa using this

end Pattie

namespace Pattie

/-- The rows at two consecutive recorded openings differ outside
column `k`. -/
theorem compute_indices_go_boundary (n k : Nat) (rows : List (List Int)) :
    ∀ (last : Option (List Int)) (f : Nat),
      f + 1 < (compute_indices_go n k last 0 rows).2.length →
      indexEqExceptAxis n k
        (rows.getD ((compute_indices_go n k last 0 rows).2.getD f 0) [])
        (rows.getD ((compute_indices_go n k last 0 rows).2.getD (f + 1) 0) [])
        = false := by
  induction rows with
  | nil =>
    intro last f hf
    simp [compute_indices_go] at hf
  | cons row rest ih =>
    intro last f hf
    by_cases h : opensNewFiber n k last row = true
    · have hoffs :
          (compute_indices_go n k last 0 (row :: rest)).2 =
            0 :: (compute_indices_go n k (some row) 0 rest).2.map (· + (0 + 1)) := by
        simp only [compute_indices_go, h, if_pos]
        rw [compute_indices_go_shift n k (some row) (0 + 1) rest]
      rw [hoffs] at hf ⊢
      simp only [List.length_cons, List.length_map] at hf
      match f with
      | 0 =>
        have hL : 0 < (compute_indices_go n k (some row) 0 rest).2.length := by
          omega
        have hget1 : (0 :: (compute_indices_go n k (some row) 0 rest).2.map
            (· + (0 + 1))).getD (0 + 1) 0 =
            (compute_indices_go n k (some row) 0 rest).2.getD 0 0 + 1 := by
          rw [List.getD_cons_succ]
          simpa using getD_map_add_one _ 0 hL
        rw [hget1]
        simp only [List.getD_cons_zero, List.getD_cons_succ]
        exact compute_indices_go_first_boundary n k rest row
          (by intro hcon; rw [hcon] at hL; simp at hL)
      | f' + 1 =>
        simp only [List.getD_cons_succ]
        have hf' : f' + 1 < (compute_indices_go n k (some row) 0 rest).2.length := by
          omega
        have hg1 : ((compute_indices_go n k (some row) 0 rest).2.map
            (· + (0 + 1))).getD f' 0 =
            (compute_indices_go n k (some row) 0 rest).2.getD f' 0 + 1 := by
          simpa using getD_map_add_one _ f' (by simpa using (by omega : f' <
            (compute_indices_go n k (some row) 0 rest).2.length))
        have hg2 : ((compute_indices_go n k (some row) 0 rest).2.map
            (· + (0 + 1))).getD (f' + 1) 0 =
            (compute_indices_go n k (some row) 0 rest).2.getD (f' + 1) 0 + 1 := by
          simpa using getD_map_add_one _ (f' + 1) (by simpa using hf')
        rw [hg1, hg2]
        simp only [List.getD_cons_succ]
        exact ih (some row) f' hf'
    · have hlr : ∃ lr, last = some lr := by
        match last with
        | none => simp [opensNewFiber] at h
        | some lr => exact ⟨lr, rfl⟩
      rcases hlr with ⟨lr, rfl⟩
      have hoffs :
          (compute_indices_go n k (some lr) 0 (row :: rest)).2 =
            (compute_indices_go n k (some lr) 0 rest).2.map (· + (0 + 1)) := by
        simp only [compute_indices_go, h, Bool.false_eq_true, not_false_iff,
          if_false]
        rw [compute_indices_go_shift n k (some lr) (0 + 1) rest]
      rw [hoffs] at hf ⊢
      simp only [List.length_map] at hf
      have hg1 : ((compute_indices_go n k (some lr) 0 rest).2.map
          (· + (0 + 1))).getD f 0 =
          (compute_indices_go n k (some lr) 0 rest).2.getD f 0 + 1 := by
        simpa using getD_map_add_one _ f (by simpa using (by omega : f <
          (compute_indices_go n k (some lr) 0 rest).2.length))
      have hg2 : ((compute_indices_go n k (some lr) 0 rest).2.map
          (· + (0 + 1))).getD (f + 1) 0 =
          (compute_indices_go n k (some lr) 0 rest).2.getD (f + 1) 0 + 1 := by
        simpa using getD_map_add_one _ (f + 1) (by simpa using hf)
      rw [hg1, hg2]
      simp only [List.getD_cons_succ]
      exact ih (some lr) f hf

end Pattie

namespace Pattie

theorem mem_of_getD {α : Type} (l : List α) (p : Nat) (d : α)
    (hp : p < l.length) : l.getD p d ∈ l := by
  rw [List.getD_eq_getElem _ _ hp]
  exact List.getElem_mem _

theorem getD_append_left_nat (l1 l2 : List Nat) (i : Nat) (hi : i < l1.length) :
    (l1 ++ l2).getD i 0 = l1.getD i 0 := by
  rw [List.getD_eq_getElem _ _ (by simp; omega), List.getD_eq_getElem _ _ hi,
    List.getElem_append_left hi]

theorem getD_append_at_len (l1 : List Nat) (x : Nat) :
    (l1 ++ [x]).getD l1.length 0 = x := by
  rw [List.getD_eq_getElem _ _ (by simp)]
  rw [List.getElem_append_right (by omega)]
  simp

theorem compute_indices_fst (n k : Nat) (rows : List (List Int)) :
    (compute_indices n k rows).1 = (compute_indices_go n k none 0 rows).1 := rfl

theorem compute_indices_snd (n k : Nat) (rows : List (List Int)) :
    (compute_indices n k rows).2 =
      (compute_indices_go n k none 0 rows).2 ++ [rows.length] := rfl

/-- C6: fiber grouping.  With `M` input rows (each of width `n ≥ 1`,
common column `k < n`), `compute_indices` returns `out_indices` (`F`
rows) and `fiber_offsets` such that: `fiber_offsets` has length `F + 1`,
starts at `0`, ends at `M`, and is strictly increasing; consecutive
`out_indices` rows are distinct; `out_indices[f]` is the first row of
fiber `f` with the common column removed (so fibers are emitted in
first-occurrence order); and every row inside the span of fiber `f`
agrees with `out_indices[f]` on every column other than the common one. -/
theorem fiber_grouping_correct (n k : Nat) (rows : List (List Int))
    (hk : k < n) (hlen : ∀ r ∈ rows, r.length = n) :
    (compute_indices n k rows).2.length = (compute_indices n k rows).1.length + 1 ∧
    (compute_indices n k rows).2.getD 0 0 = 0 ∧
    (compute_indices n k rows).2.getD ((compute_indices n k rows).1.length) 0
      = rows.length ∧
    List.Pairwise (· < ·) (compute_indices n k rows).2 ∧
    List.Chain' (· ≠ ·) (compute_indices n k rows).1 ∧
    (∀ f, f < (compute_indices n k rows).1.length →
      (compute_indices n k rows).1.getD f [] =
        copy_index_except_axis
          (rows.getD ((compute_indices n k rows).2.getD f 0) []) k) ∧
    (∀ f m, f < (compute_indices n k rows).1.length →
      (compute_indices n k rows).2.getD f 0 ≤ m →
      m < (compute_indices n k rows).2.getD (f + 1) 0 →
      copy_index_except_axis (rows.getD m []) k =
        (compute_indices n k rows).1.getD f []) := by
  have hgo_len := compute_indices_go_len n k none rows
  have hgo_bound := compute_indices_go_bound n k none rows
  have hgo_sorted := compute_indices_go_sorted n k none rows
  have hgo_outs := compute_indices_go_outs n k none rows
  simp only [compute_indices_fst, compute_indices_snd]
  have houts_formula : ∀ f, f < (compute_indices_go n k none 0 rows).1.length →
      (compute_indices_go n k none 0 rows).1.getD f [] =
        copy_index_except_axis
          (rows.getD (((compute_indices_go n k none 0 rows).2 ++
            [rows.length]).getD f 0) []) k := by
    intro f hf
    have hf2 : f < (compute_indices_go n k none 0 rows).2.length := by omega
    rw [getD_append_left_nat _ _ f hf2, hgo_outs]
    rw [List.getD_eq_getElem _ _ (by simpa using hf2),
      List.getD_eq_getElem _ _ hf2, List.getElem_map]
  refine ⟨?_, ?_, ?_, ?_, ?_, houts_formula, ?_⟩
  · simp [hgo_len]
  · match rows with
    | [] => rfl
    | row :: rest =>
      have hcons : (compute_indices_go n k none 0 (row :: rest)).2 =
          0 :: (compute_indices_go n k (some row) 0 rest).2.map (· + (0 + 1)) := by
        simp only [compute_indices_go, opensNewFiber, if_pos]
        rw [compute_indices_go_shift n k (some row) (0 + 1) rest]
      rw [hcons]
      rfl
  · rw [← hgo_len]
    exact getD_append_at_len _ _
  · rw [List.pairwise_append]
    refine ⟨hgo_sorted, by simp, ?_⟩
    intro x hx y hy
    simp only [List.mem_singleton] at hy
    subst hy
    exact hgo_bound x hx
  · rw [hgo_outs, List.chain'_map, List.chain'_iff_get]
    intro i hi
    have hi1 : i < (compute_indices_go n k none 0 rows).2.length := by omega
    have hi2 : i + 1 < (compute_indices_go n k none 0 rows).2.length := by omega
    rw [List.get_eq_getElem, List.get_eq_getElem]
    intro hcon
    have hb := compute_indices_go_boundary n k rows none i hi2
    have hp1 : (compute_indices_go n k none 0 rows).2[i] =
        (compute_indices_go n k none 0 rows).2.getD i 0 :=
      (List.getD_eq_getElem _ _ hi1).symm
    have hp2 : (compute_indices_go n k none 0 rows).2[i+1] =
        (compute_indices_go n k none 0 rows).2.getD (i+1) 0 :=
      (List.getD_eq_getElem _ _ hi2).symm
    rw [hp1, hp2] at hcon
    have hr1 : (rows.getD ((compute_indices_go n k none 0 rows).2.getD i 0) []).length = n := by
      apply hlen
      apply mem_of_getD
      exact hgo_bound _ (mem_of_getD _ _ _ hi1)
    have hr2 : (rows.getD ((compute_indices_go n k none 0 rows).2.getD (i+1) 0) []).length = n := by
      apply hlen
      apply mem_of_getD
      exact hgo_bound _ (mem_of_getD _ _ _ hi2)
    have := (indexEqExceptAxis_iff_copy_eq hr1 hr2 hk).mpr hcon
    rw [this] at hb
    cases hb
  · intro f m hf hlo hhi
    have hf2 : f < (compute_indices_go n k none 0 rows).2.length := by omega
    rw [getD_append_left_nat _ _ f hf2] at hlo
    have hoff1 : ((compute_indices_go n k none 0 rows).2 ++ [rows.length]).getD (f + 1) 0 =
        (if f + 1 < (compute_indices_go n k none 0 rows).2.length
         then (compute_indices_go n k none 0 rows).2.getD (f + 1) 0
         else rows.length) := by
      by_cases hc : f + 1 < (compute_indices_go n k none 0 rows).2.length
      · rw [if_pos hc]
        exact getD_append_left_nat _ _ (f + 1) hc
      · rw [if_neg hc]
        have hfe : f + 1 = (compute_indices_go n k none 0 rows).2.length := by
          omega
        rw [hfe, getD_append_at_len]
    rw [hoff1] at hhi
    have hagree := compute_indices_go_fiber_agree n k rows none f m hf2 hlo hhi
    have hmM : m < rows.length := by
      by_cases hc : f + 1 < (compute_indices_go n k none 0 rows).2.length
      · rw [if_pos hc] at hhi
        have := hgo_bound _ (mem_of_getD _ (f + 1) 0 hc)
        omega
      · rw [if_neg hc] at hhi
        exact hhi
    have hr1 : (rows.getD ((compute_indices_go n k none 0 rows).2.getD f 0) []).length = n := by
      apply hlen
      apply mem_of_getD
      exact hgo_bound _ (mem_of_getD _ _ _ hf2)
    have hr2 : (rows.getD m []).length = n := hlen _ (mem_of_getD _ _ _ hmM)
    have hcopy := (indexEqExceptAxis_iff_copy_eq hr1 hr2 hk).mp hagree
    rw [houts_formula f hf, getD_append_left_nat _ _ f hf2, hcopy]

end Pattie

namespace Pattie

theorem fiber_grouping_correct_witness :
    ((1 : Nat) < 2 ∧ ∀ r ∈ [[(0 : Int), 0], [0, 1], [1, 0]], r.length = 2) ∧
    List.Pairwise (· < ·)
      (compute_indices 2 1 [[(0 : Int), 0], [0, 1], [1, 0]]).2 ∧
    List.Chain' (· ≠ ·)
      (compute_indices 2 1 [[(0 : Int), 0], [0, 1], [1, 0]]).1 :=
  ⟨⟨by decide, by decide⟩,
   (fiber_grouping_correct 2 1 [[0, 0], [0, 1], [1, 0]] (by decide)
      (by decide)).2.2.2.1,
   (fiber_grouping_correct 2 1 [[0, 0], [0, 1], [1, 0]] (by decide)
      (by decide)).2.2.2.2.1⟩

end Pattie

namespace Pattie

/-! ## TTM value kernels (`compute_values` /
`compute_values_multi_thread` in
`src/algos/tensor_matrix/coo_mul_dense.rs` and
`src/algos/tensor_matrix/scoo_mul_dense.rs`)

The value type and its `+`/`*` are abstract (no algebraic law is
assumed), so an equality between the serial and the parallel kernel
states that both perform the same additions in the same order on each
output cell — the "bitwise identical" guarantee of the spec.  The
parallel kernel computes each output row (one fiber) independently from
a zero row, which is exactly the rayon `for_each` over disjoint rows. -/

theorem getD_set_ne {α : Type} (l : List α) (s i : Nat) (x d : α)
    (h : i ≠ s) : (l.set s x).getD i d = l.getD i d := by
  rw [List.getD_eq_getElem?_getD, List.getD_eq_getElem?_getD,
    List.getElem?_set_ne (Ne.symm h)]

theorem take_set_succ {α : Type} (l : List α) (s : Nat) (x : α)
    (h : s < l.length) : (l.set s x).take (s + 1) = l.take s ++ [x] := by
  induction l generalizing s with
  | nil => simp at h
  | cons a t ih =>
    match s with
    | 0 => simp
    | s + 1 =>
      simp only [List.set_cons_succ, List.take_succ_cons, List.take_cons,
        List.cons_append]
      rw [ih s (by simpa using h)]

/-- For a fold over `range' s kk` where step `i` only replaces entry `i`
(computed from the old entry `i`), the result is the untouched prefix
followed by the per-index images. -/
theorem foldl_set_eq_map {α : Type} (f : Nat → α → α) (d : α) :
    ∀ (kk s : Nat) (acc : List α), s + kk = acc.length →
      (List.range' s kk).foldl (fun a i => a.set i (f i (a.getD i d))) acc =
        acc.take s ++ (List.range' s kk).map (fun i => f i (acc.getD i d)) := by
  intro kk
  induction kk with
  | zero =>
    intro s acc hs
    simp only [List.range'_zero, List.foldl_nil, List.map_nil, List.append_nil]
    rw [List.take_of_length_le (by omega)]
  | succ kk ih =>
    intro s acc hs
    rw [List.range'_succ, List.foldl_cons, List.map_cons]
    have hslt : s < acc.length := by omega
    rw [ih (s + 1) (acc.set s (f s (acc.getD s d))) (by simp; omega)]
    rw [take_set_succ _ _ _ hslt]
    rw [List.append_assoc, List.singleton_append]
    congr 2
    apply List.map_congr_left
    intro i hi
    have his : i ≠ s := by
      have := List.mem_range'_1.mp hi
      omega
    rw [getD_set_ne _ _ _ _ _ his]

end Pattie

namespace Pattie

/-- The body of the COO-TTM inner loops for one nonzero `j` of one
fiber: `r = indices[j][k] - lower` (cast to `usize`), then every column
`c` of the output row is updated with
`row[c] = row[c] + tensor_values[j] * matrix_values[r][c]`. -/
def fiberStep {VT : Type} (add mul : VT → VT → VT) (zero : VT)
    (tensorIndices : List (List Int)) (tensorValues : List VT)
    (matrixValues : List (List VT)) (commonLower : Int) (commonIdx : Nat)
    (j : Nat) (row : List VT) : List VT :=
  let r := (((tensorIndices.getD j []).getD commonIdx 0) - commonLower).toNat
  row.mapIdx fun c v =>
    add v (mul (tensorValues.getD j zero) ((matrixValues.getD r []).getD c zero))

/-- The `for j in fiber_offsets[i] .. fiber_offsets[i+1]` loop of the
COO kernel, acting on one output row. -/
def fiberAccum {VT : Type} (add mul : VT → VT → VT) (zero : VT)
    (tensorIndices : List (List Int)) (tensorValues : List VT)
    (matrixValues : List (List VT)) (commonLower : Int) (commonIdx : Nat)
    (b e : Nat) (row0 : List VT) : List VT :=
  (List.range' b (e - b)).foldl
    (fun row j =>
      fiberStep add mul zero tensorIndices tensorValues matrixValues
        commonLower commonIdx j row) row0

/-- `compute_values` (serial COO kernel): allocates the
`num_fibers × r` zero matrix and accumulates fiber `i` into row `i`,
for `i = 0, 1, …` in order. -/
def compute_values {VT : Type} (add mul : VT → VT → VT) (zero : VT)
    (tensorIndices : List (List Int)) (tensorValues : List VT)
    (matrixValues : List (List VT)) (commonLower : Int) (commonIdx : Nat)
    (numFibers r : Nat) (fiberOffsets : List Nat) : List (List VT) :=
  (List.range numFibers).foldl
    (fun acc i =>
      acc.set i
        (fiberAccum add mul zero tensorIndices tensorValues matrixValues
          commonLower commonIdx (fiberOffsets.getD i 0)
          (fiberOffsets.getD (i + 1) 0) (acc.getD i (List.replicate r zero))))
    (List.replicate numFibers (List.replicate r zero))

/-- `compute_values_multi_thread` (parallel COO kernel): each rayon task
owns output row `i` exclusively and accumulates its fiber into that row;
rows are assembled into the same `num_fibers × r` matrix. -/
def compute_values_multi_thread {VT : Type} (add mul : VT → VT → VT)
    (zero : VT) (tensorIndices : List (List Int)) (tensorValues : List VT)
    (matrixValues : List (List VT)) (commonLower : Int) (commonIdx : Nat)
    (numFibers r : Nat) (fiberOffsets : List Nat) : List (List VT) :=
  (List.range numFibers).map fun i =>
    fiberAccum add mul zero tensorIndices tensorValues matrixValues
      commonLower commonIdx (fiberOffsets.getD i 0)
      (fiberOffsets.getD (i + 1) 0) (List.replicate r zero)

/-- The body of the sCOO-TTM inner loops for one nonzero `j`: the output
chunk is a `P × r` panel, updated as
`chunk[p][c] += tensor_values[j][p] * matrix_values[r][c]` with the `p`
loop outside the `c` loop. -/
def scooFiberStep {VT : Type} (add mul : VT → VT → VT) (zero : VT)
    (tensorIndices : List (List Int)) (tensorValues : List (List VT))
    (matrixValues : List (List VT)) (commonLower : Int) (commonIdx : Nat)
    (j : Nat) (chunk : List (List VT)) : List (List VT) :=
  let r := (((tensorIndices.getD j []).getD commonIdx 0) - commonLower).toNat
  chunk.mapIdx fun p prow =>
    prow.mapIdx fun c v =>
      add v (mul ((tensorValues.getD j []).getD p zero)
        ((matrixValues.getD r []).getD c zero))

/-- The per-chunk loop of the sCOO kernel. -/
def scooFiberAccum {VT : Type} (add mul : VT → VT → VT) (zero : VT)
    (tensorIndices : List (List Int)) (tensorValues : List (List VT))
    (matrixValues : List (List VT)) (commonLower : Int) (commonIdx : Nat)
    (b e : Nat) (chunk0 : List (List VT)) : List (List VT) :=
  (List.range' b (e - b)).foldl
    (fun chunk j =>
      scooFiberStep add mul zero tensorIndices tensorValues matrixValues
        commonLower commonIdx j chunk) chunk0

/-- sCOO `compute_values` (serial): `num_chunks × P × r` zero array,
chunks accumulated in order. -/
def scoo_compute_values {VT : Type} (add mul : VT → VT → VT) (zero : VT)
    (tensorIndices : List (List Int)) (tensorValues : List (List VT))
    (matrixValues : List (List VT)) (commonLower : Int) (commonIdx : Nat)
    (numChunks p r : Nat) (chunkOffsets : List Nat) : List (List (List VT)) :=
  (List.range numChunks).foldl
    (fun acc i =>
      acc.set i
        (scooFiberAccum add mul zero tensorIndices tensorValues matrixValues
          commonLower commonIdx (chunkOffsets.getD i 0)
          (chunkOffsets.getD (i + 1) 0)
          (acc.getD i (List.replicate p (List.replicate r zero)))))
    (List.replicate numChunks (List.replicate p (List.replicate r zero)))

/-- sCOO `compute_values_multi_thread`: rayon `outer_iter_mut` over the
leading (chunk) axis; each task owns one `P × r` slab. -/
def scoo_compute_values_multi_thread {VT : Type} (add mul : VT → VT → VT)
    (zero : VT) (tensorIndices : List (List Int))
    (tensorValues : List (List VT)) (matrixValues : List (List VT))
    (commonLower : Int) (commonIdx : Nat) (numChunks p r : Nat)
    (chunkOffsets : List Nat) : List (List (List VT)) :=
  (List.range numChunks).map fun i =>
    scooFiberAccum add mul zero tensorIndices tensorValues matrixValues
      commonLower commonIdx (chunkOffsets.getD i 0)
      (chunkOffsets.getD (i + 1) 0) (List.replicate p (List.replicate r zero))

/-- The serial accumulate-into-row-`i` fold equals the independent
per-row map, because step `i` touches only entry `i` of the
accumulator, every entry starts as the same zero block, and the fold
visits each index once. -/
theorem serial_fold_eq_parallel_map {α : Type} (g : Nat → α → α) (z : α)
    (nf : Nat) :
    (List.range nf).foldl (fun acc i => acc.set i (g i (acc.getD i z)))
        (List.replicate nf z) =
      (List.range nf).map (fun i => g i z) := by
  have h := foldl_set_eq_map g z nf 0 (List.replicate nf z) (by simp)
  rw [List.range_eq_range']
  rw [h]
  simp only [List.take_zero, List.nil_append]
  apply List.map_congr_left
  intro i hi
  have hilt : i < nf := by
    have := List.mem_range'_1.mp hi
    omega
  rw [List.getD_eq_getElem _ _ (by simpa using hilt), List.getElem_replicate]

/-- C2: serial/parallel equivalence of the TTM accumulators.  For all
inputs, the serial `compute_values` and the parallel
`compute_values_multi_thread` of the COO kernel produce equal value
matrices, and likewise for the sCOO kernel; hence the value array
produced by `execute` does not depend on the `multi_thread` flag (in
`scoo_mul_dense.rs` the two branches are even swapped — `multi_thread =
true` runs the serial kernel — without observable effect).  The value
type and its `+`/`*` are abstract, so this is bitwise agreement, not an
algebraic coincidence. -/
theorem ttm_serial_eq_parallel {VT : Type} (add mul : VT → VT → VT)
    (zero : VT) (tensorIndices : List (List Int))
    (cooValues : List VT) (scooValues : List (List VT))
    (matrixValues : List (List VT)) (commonLower : Int) (commonIdx : Nat)
    (numFibers p r : Nat) (fiberOffsets : List Nat) :
    compute_values add mul zero tensorIndices cooValues matrixValues
        commonLower commonIdx numFibers r fiberOffsets =
      compute_values_multi_thread add mul zero tensorIndices cooValues
        matrixValues commonLower commonIdx numFibers r fiberOffsets ∧
    scoo_compute_values add mul zero tensorIndices scooValues matrixValues
        commonLower commonIdx numFibers p r fiberOffsets =
      scoo_compute_values_multi_thread add mul zero tensorIndices scooValues
        matrixValues commonLower commonIdx numFibers p r fiberOffsets := by
  constructor
  · exact serial_fold_eq_parallel_map _ _ _
  · exact serial_fold_eq_parallel_map _ _ _

end Pattie

namespace Pattie

/-! ## Lexicographic sortedness and the naive TTM reference (C1)

The sort key of a row under an axis order `ord` (columns listed
most-significant first) is the subsequence of its coordinates in that
order; rows are sorted when adjacent keys are non-decreasing
lexicographically. -/

/-- Boolean lexicographic `≤` on integer lists. -/
def lexLeB : List Int → List Int → Bool
  | [], _ => true
  | _ :: _, [] => false
  | a :: as, b :: bs => decide (a < b) || (decide (a = b) && lexLeB as bs)

/-- The sort key of `row` under column order `ord`. -/
def keyOf (ord : List Nat) (row : List Int) : List Int :=
  ord.map fun i => row.getD i 0

theorem lexLeB_refl : ∀ a : List Int, lexLeB a a = true
  | [] => rfl
  | x :: xs => by simp [lexLeB, lexLeB_refl xs]

theorem lexLeB_trans : ∀ {a b c : List Int}, lexLeB a b = true →
    lexLeB b c = true → lexLeB a c = true
  | [], _, _, _, _ => rfl
  | _ :: _, [], _, h, _ => by simp [lexLeB] at h
  | _ :: _, _ :: _, [], _, h => by simp [lexLeB] at h
  | a :: as, b :: bs, c :: cs, h1, h2 => by
    simp only [lexLeB, Bool.or_eq_true, Bool.and_eq_true, decide_eq_true_eq]
      at h1 h2 ⊢
    rcases h1 with h1 | ⟨rfl, h1⟩
    · rcases h2 with h2 | ⟨rfl, h2⟩
      · exact Or.inl (by omega)
      · exact Or.inl h1
    · rcases h2 with h2 | ⟨rfl, h2⟩
      · exact Or.inl h2
      · exact Or.inr ⟨rfl, lexLeB_trans h1 h2⟩

theorem lexLeB_antisymm : ∀ {a b : List Int}, a.length = b.length →
    lexLeB a b = true → lexLeB b a = true → a = b
  | [], [], _, _, _ => rfl
  | [], _ :: _, h, _, _ => by simp at h
  | _ :: _, [], h, _, _ => by simp at h
  | a :: as, b :: bs, h, h1, h2 => by
    simp only [lexLeB, Bool.or_eq_true, Bool.and_eq_true, decide_eq_true_eq]
      at h1 h2
    rcases h1 with h1 | ⟨rfl, h1⟩
    · rcases h2 with h2 | ⟨he, _⟩
      · omega
      · omega
    · rcases h2 with h2 | ⟨_, h2⟩
      · omega
      · rw [lexLeB_antisymm (by simpa using h) h1 h2]

theorem lexLeB_append_prefix : ∀ {p1 p2 s1 s2 : List Int},
    p1.length = p2.length → lexLeB (p1 ++ s1) (p2 ++ s2) = true →
    lexLeB p1 p2 = true
  | [], [], _, _, _, _ => rfl
  | [], _ :: _, _, _, h, _ => by simp at h
  | _ :: _, [], _, _, h, _ => by simp at h
  | a :: as, b :: bs, s1, s2, h, h1 => by
    simp only [List.cons_append, lexLeB, Bool.or_eq_true, Bool.and_eq_true,
      decide_eq_true_eq] at h1 ⊢
    rcases h1 with h1 | ⟨rfl, h1⟩
    · exact Or.inl h1
    · exact Or.inr ⟨rfl, lexLeB_append_prefix (by simpa using h) h1⟩

end Pattie

namespace Pattie

theorem sorted_key_mono (rows : List (List Int)) (ord : List Nat)
    (hsort : ∀ m, m + 1 < rows.length →
      lexLeB (keyOf ord (rows.getD m [])) (keyOf ord (rows.getD (m + 1) []))
        = true) :
    ∀ m m', m ≤ m' → m' < rows.length →
      lexLeB (keyOf ord (rows.getD m [])) (keyOf ord (rows.getD m' []))
        = true := by
  intro m m' hle hlt
  induction m' with
  | zero =>
    have : m = 0 := by omega
    subst this
    exact lexLeB_refl _
  | succ p ih =>
    by_cases hc : m = p + 1
    · subst hc
      exact lexLeB_refl _
    · exact lexLeB_trans (ih (by omega) (by omega)) (hsort p hlt)

theorem ord_facts (n k : Nat) (ord : List Nat)
    (hperm : ord.Perm (List.range n)) (hlast : ord.getLast? = some k) :
    (∀ j ∈ ord.dropLast, j < n ∧ j ≠ k) ∧
    (∀ i, i < n → i ≠ k → i ∈ ord.dropLast) := by
  have hne : ord ≠ [] := by
    intro hcon
    rw [hcon] at hlast
    cases hlast
  have hdecomp : ord.dropLast ++ [k] = ord := by
    have := List.dropLast_append_getLast hne
    rw [List.getLast?_eq_getLast ord hne] at hlast
    rw [Option.some.injEq] at hlast
    rw [← hlast]
    exact this
  have hnodup : ord.Nodup := hperm.nodup_iff.mpr (List.nodup_range n)
  have hknotin : k ∉ ord.dropLast := by
    intro hcon
    rw [← hdecomp] at hnodup
    rcases List.nodup_append.mp hnodup with ⟨_, _, hdisj⟩
    exact hdisj hcon (List.mem_singleton_self k)
  constructor
  · intro j hj
    have hjord : j ∈ ord := by
      rw [← hdecomp]
      exact List.mem_append_left _ hj
    have : j ∈ List.range n := hperm.mem_iff.mp hjord
    refine ⟨List.mem_range.mp this, ?_⟩
    intro hcon
    subst hcon
    exact hknotin hj
  · intro i hi hik
    have : i ∈ ord := hperm.mem_iff.mpr (List.mem_range.mpr hi)
    rw [← hdecomp] at this
    rcases List.mem_append.mp this with h | h
    · exact h
    · exact absurd (List.mem_singleton.mp h) hik

theorem copy_eq_iff_prefix_key_eq (n k : Nat) (ord : List Nat)
    (hk : k < n) (hperm : ord.Perm (List.range n))
    (hlast : ord.getLast? = some k) (a b : List Int)
    (ha : a.length = n) (hb : b.length = n) :
    copy_index_except_axis a k = copy_index_except_axis b k ↔
      keyOf ord.dropLast a = keyOf ord.dropLast b := by
  obtain ⟨hdom, hcov⟩ := ord_facts n k ord hperm hlast
  constructor
  · intro h
    have hpt := indexEqExceptAxis_iff.mp
      ((indexEqExceptAxis_iff_copy_eq ha hb hk).mpr h)
    apply List.map_congr_left
    intro j hj
    exact hpt j (hdom j hj).1 (hdom j hj).2
  · intro h
    apply (indexEqExceptAxis_iff_copy_eq ha hb hk).mp
    apply indexEqExceptAxis_iff.mpr
    intro i hi hik
    have hmem := hcov i hi hik
    exact List.map_eq_map_iff.mp h i hmem

theorem key_decompose (k : Nat) (ord : List Nat)
    (hlast : ord.getLast? = some k) (row : List Int) :
    keyOf ord row = keyOf ord.dropLast row ++ [row.getD k 0] := by
  have hne : ord ≠ [] := by
    intro hcon
    rw [hcon] at hlast
    cases hlast
  have hdecomp : ord.dropLast ++ [k] = ord := by
    have := List.dropLast_append_getLast hne
    rw [List.getLast?_eq_getLast ord hne] at hlast
    rw [Option.some.injEq] at hlast
    rw [← hlast]
    exact this
  conv_lhs => rw [← hdecomp]
  simp [keyOf]

/-- In rows sorted lexicographically with the common column `k` as the
least-significant key, rows that agree outside `k` form contiguous
spans. -/
theorem proj_contiguous (n k : Nat) (rows : List (List Int))
    (ord : List Nat) (hk : k < n) (hlen : ∀ r ∈ rows, r.length = n)
    (hperm : ord.Perm (List.range n)) (hlast : ord.getLast? = some k)
    (hsort : ∀ m, m + 1 < rows.length →
      lexLeB (keyOf ord (rows.getD m [])) (keyOf ord (rows.getD (m + 1) []))
        = true)
    (m1 m2 m3 : Nat) (h12 : m1 ≤ m2) (h23 : m2 ≤ m3) (h3 : m3 < rows.length)
    (hpr : copy_index_except_axis (rows.getD m1 []) k =
      copy_index_except_axis (rows.getD m3 []) k) :
    copy_index_except_axis (rows.getD m2 []) k =
      copy_index_except_axis (rows.getD m1 []) k := by
  have hl1 : (rows.getD m1 []).length = n := hlen _ (mem_of_getD _ _ _ (by omega))
  have hl2 : (rows.getD m2 []).length = n := hlen _ (mem_of_getD _ _ _ (by omega))
  have hl3 : (rows.getD m3 []).length = n := hlen _ (mem_of_getD _ _ _ h3)
  have h12k := sorted_key_mono rows ord hsort m1 m2 h12 (by omega)
  have h23k := sorted_key_mono rows ord hsort m2 m3 h23 h3
  rw [key_decompose k ord hlast, key_decompose k ord hlast] at h12k h23k
  have hp12 := lexLeB_append_prefix (by simp [keyOf]) h12k
  have hp23 := lexLeB_append_prefix (by simp [keyOf]) h23k
  have hpr13 : keyOf ord.dropLast (rows.getD m1 []) =
      keyOf ord.dropLast (rows.getD m3 []) :=
    (copy_eq_iff_prefix_key_eq n k ord hk hperm hlast _ _ hl1 hl3).mp hpr
  rw [← hpr13] at hp23
  have heq : keyOf ord.dropLast (rows.getD m1 []) =
      keyOf ord.dropLast (rows.getD m2 []) :=
    lexLeB_antisymm (by simp [keyOf]) hp12 hp23
  exact (copy_eq_iff_prefix_key_eq n k ord hk hperm hlast _ _ hl2 hl1).mpr
    heq.symm

end Pattie

namespace Pattie

theorem compute_indices_outs_formula (n k : Nat) (rows : List (List Int)) :
    ∀ f, f < (compute_indices n k rows).1.length →
      (compute_indices n k rows).1.getD f [] =
        copy_index_except_axis
          (rows.getD ((compute_indices n k rows).2.getD f 0) []) k := by
  intro f hf
  have hgo_len := compute_indices_go_len n k none rows
  have hgo_outs := compute_indices_go_outs n k none rows
  simp only [compute_indices_fst, compute_indices_snd] at hf ⊢
  have hf2 : f < (compute_indices_go n k none 0 rows).2.length := by omega
  rw [getD_append_left_nat _ _ f hf2, hgo_outs]
  rw [List.getD_eq_getElem _ _ (by simpa using hf2),
    List.getD_eq_getElem _ _ hf2, List.getElem_map]

theorem compute_indices_member (n k : Nat) (rows : List (List Int)) :
    ∀ f m, f < (compute_indices n k rows).1.length →
      (compute_indices n k rows).2.getD f 0 ≤ m →
      m < (compute_indices n k rows).2.getD (f + 1) 0 →
      indexEqExceptAxis n k
        (rows.getD ((compute_indices n k rows).2.getD f 0) [])
        (rows.getD m []) = true := by
  intro f m hf hlo hhi
  have hgo_len := compute_indices_go_len n k none rows
  have hgo_bound := compute_indices_go_bound n k none rows
  simp only [compute_indices_fst, compute_indices_snd] at hf hlo hhi ⊢
  have hf2 : f < (compute_indices_go n k none 0 rows).2.length := by omega
  rw [getD_append_left_nat _ _ f hf2] at hlo ⊢
  have hoff1 : ((compute_indices_go n k none 0 rows).2 ++ [rows.length]).getD (f + 1) 0 =
      (if f + 1 < (compute_indices_go n k none 0 rows).2.length
       then (compute_indices_go n k none 0 rows).2.getD (f + 1) 0
       else rows.length) := by
    by_cases hc : f + 1 < (compute_indices_go n k none 0 rows).2.length
    · rw [if_pos hc]
      exact getD_append_left_nat _ _ (f + 1) hc
    · rw [if_neg hc]
      have hfe : f + 1 = (compute_indices_go n k none 0 rows).2.length := by
        omega
      rw [hfe, getD_append_at_len]
  rw [hoff1] at hhi
  exact compute_indices_go_fiber_agree n k rows none f m hf2 hlo hhi

theorem pairwise_lt_getD (l : List Nat) (h : List.Pairwise (· < ·) l)
    (i j : Nat) (hij : i < j) (hj : j < l.length) :
    l.getD i 0 < l.getD j 0 := by
  rw [List.getD_eq_getElem _ _ (by omega), List.getD_eq_getElem _ _ hj]
  exact List.pairwise_iff_get.mp h ⟨i, by omega⟩ ⟨j, hj⟩ hij

theorem compute_indices_offsets_facts (n k : Nat) (rows : List (List Int)) :
    ∀ f, f < (compute_indices n k rows).1.length →
      (compute_indices n k rows).2.getD f 0 <
        (compute_indices n k rows).2.getD (f + 1) 0 ∧
      (compute_indices n k rows).2.getD (f + 1) 0 ≤ rows.length ∧
      (compute_indices n k rows).2.getD f 0 < rows.length := by
  intro f hf
  have hgo_len := compute_indices_go_len n k none rows
  have hgo_bound := compute_indices_go_bound n k none rows
  have hgo_sorted := compute_indices_go_sorted n k none rows
  simp only [compute_indices_fst, compute_indices_snd] at hf ⊢
  have hf2 : f < (compute_indices_go n k none 0 rows).2.length := by omega
  have hfa : ((compute_indices_go n k none 0 rows).2 ++ [rows.length]).getD f 0 =
      (compute_indices_go n k none 0 rows).2.getD f 0 :=
    getD_append_left_nat _ _ f hf2
  have haM : (compute_indices_go n k none 0 rows).2.getD f 0 < rows.length :=
    hgo_bound _ (mem_of_getD _ _ _ hf2)
  by_cases hc : f + 1 < (compute_indices_go n k none 0 rows).2.length
  · have hfb : ((compute_indices_go n k none 0 rows).2 ++ [rows.length]).getD (f + 1) 0 =
        (compute_indices_go n k none 0 rows).2.getD (f + 1) 0 :=
      getD_append_left_nat _ _ (f + 1) hc
    rw [hfa, hfb]
    refine ⟨pairwise_lt_getD _ hgo_sorted f (f + 1) (by omega) hc, ?_, haM⟩
    exact Nat.le_of_lt (hgo_bound _ (mem_of_getD _ _ _ hc))
  · have hfe : f + 1 = (compute_indices_go n k none 0 rows).2.length := by omega
    have hfb : ((compute_indices_go n k none 0 rows).2 ++ [rows.length]).getD (f + 1) 0 =
        rows.length := by
      rw [hfe, getD_append_at_len]
    rw [hfa, hfb]
    exact ⟨haM, Nat.le_refl _, haM⟩

theorem compute_indices_first_offset (n k : Nat) (rows : List (List Int))
    (hne : 0 < (compute_indices n k rows).1.length) :
    (compute_indices n k rows).2.getD 0 0 = 0 := by
  match rows with
  | [] =>
    simp only [compute_indices_fst] at hne
    simp [compute_indices, compute_indices_go] at hne
  | row :: rest =>
    simp only [compute_indices_snd]
    have hcons : (compute_indices_go n k none 0 (row :: rest)).2 =
        0 :: (compute_indices_go n k (some row) 0 rest).2.map (· + (0 + 1)) := by
      simp only [compute_indices_go, opensNewFiber, if_pos]
      rw [compute_indices_go_shift n k (some row) (0 + 1) rest]
    rw [hcons]
    rfl

end Pattie

namespace Pattie

/-- Below its span, no row projects onto fiber `f`'s compacted index
(requires lexicographic sortedness with the common column last). -/
theorem fiber_excl_below (n k : Nat) (rows : List (List Int))
    (ord : List Nat) (hk : k < n) (hlen : ∀ r ∈ rows, r.length = n)
    (hperm : ord.Perm (List.range n)) (hlast : ord.getLast? = some k)
    (hsort : ∀ m, m + 1 < rows.length →
      lexLeB (keyOf ord (rows.getD m [])) (keyOf ord (rows.getD (m + 1) []))
        = true) :
    ∀ f m, f < (compute_indices n k rows).1.length →
      m < (compute_indices n k rows).2.getD f 0 →
      ¬ (copy_index_except_axis (rows.getD m []) k =
        copy_index_except_axis
          (rows.getD ((compute_indices n k rows).2.getD f 0) []) k) := by
  intro f m hf hm hcon
  have hgo_len := compute_indices_go_len n k none rows
  have hgo_bound := compute_indices_go_bound n k none rows
  match f with
  | 0 =>
    rw [compute_indices_first_offset n k rows (by omega)] at hm
    omega
  | f' + 1 =>
    have hfacts := compute_indices_offsets_facts n k rows
    have hf2 : f' + 1 < (compute_indices_go n k none 0 rows).2.length := by
      simp only [compute_indices_fst] at hf
      omega
    have hf' : f' < (compute_indices n k rows).1.length := by
      simp only [compute_indices_fst] at hf ⊢
      omega
    obtain ⟨hab', _, _⟩ := hfacts f' hf'
    obtain ⟨_, _, haM⟩ := hfacts (f' + 1) hf
    -- positions
    set a := (compute_indices n k rows).2.getD (f' + 1) 0 with ha_def
    set aprev := (compute_indices n k rows).2.getD f' 0 with haprev_def
    -- the wrapper offsets at f' and f'+1 are the go offsets
    have hwa : a = (compute_indices_go n k none 0 rows).2.getD (f' + 1) 0 := by
      rw [ha_def]
      simp only [compute_indices_snd]
      exact getD_append_left_nat _ _ (f' + 1) hf2
    have hwaprev : aprev = (compute_indices_go n k none 0 rows).2.getD f' 0 := by
      rw [haprev_def]
      simp only [compute_indices_snd]
      exact getD_append_left_nat _ _ f' (by omega)
    -- boundary: opening rows of fibers f' and f'+1 differ outside k
    have hbd := compute_indices_go_boundary n k rows none f' hf2
    rw [← hwa, ← hwaprev] at hbd
    have hlaprev : (rows.getD aprev []).length = n :=
      hlen _ (mem_of_getD _ _ _ (by omega))
    have hla : (rows.getD a []).length = n := hlen _ (mem_of_getD _ _ _ haM)
    have hbd' : ¬ (copy_index_except_axis (rows.getD aprev []) k =
        copy_index_except_axis (rows.getD a []) k) := by
      intro hcc
      rw [(indexEqExceptAxis_iff_copy_eq hlaprev hla hk).mpr hcc] at hbd
      cases hbd
    -- the row just before `a` belongs to fiber f'
    have hmem := compute_indices_member n k rows f' (a - 1) hf' (by omega)
      (by omega)
    have hlam : (rows.getD (a - 1) []).length = n :=
      hlen _ (mem_of_getD _ _ _ (by omega))
    have hmem' : copy_index_except_axis (rows.getD aprev []) k =
        copy_index_except_axis (rows.getD (a - 1) []) k :=
      (indexEqExceptAxis_iff_copy_eq hlaprev hlam hk).mp hmem
    -- contiguity between m, a-1 and a
    have hcontig := proj_contiguous n k rows ord hk hlen hperm hlast hsort
      m (a - 1) a (by omega) (by omega) haM hcon
    exact hbd' (hmem'.trans (hcontig.trans hcon))

/-- Above its span, no row projects onto fiber `f`'s compacted index. -/
theorem fiber_excl_above (n k : Nat) (rows : List (List Int))
    (ord : List Nat) (hk : k < n) (hlen : ∀ r ∈ rows, r.length = n)
    (hperm : ord.Perm (List.range n)) (hlast : ord.getLast? = some k)
    (hsort : ∀ m, m + 1 < rows.length →
      lexLeB (keyOf ord (rows.getD m [])) (keyOf ord (rows.getD (m + 1) []))
        = true) :
    ∀ f m, f < (compute_indices n k rows).1.length →
      (compute_indices n k rows).2.getD (f + 1) 0 ≤ m → m < rows.length →
      ¬ (copy_index_except_axis (rows.getD m []) k =
        copy_index_except_axis
          (rows.getD ((compute_indices n k rows).2.getD f 0) []) k) := by
  intro f m hf hbm hmM hcon
  have hgo_len := compute_indices_go_len n k none rows
  have hgo_bound := compute_indices_go_bound n k none rows
  have hfacts := compute_indices_offsets_facts n k rows
  obtain ⟨hab, hbM, haM⟩ := hfacts f hf
  set a := (compute_indices n k rows).2.getD f 0 with ha_def
  set b := (compute_indices n k rows).2.getD (f + 1) 0 with hb_def
  by_cases hc : f + 1 < (compute_indices_go n k none 0 rows).2.length
  · -- `b` is the opening of fiber f+1
    have hwa : a = (compute_indices_go n k none 0 rows).2.getD f 0 := by
      rw [ha_def]
      simp only [compute_indices_snd]
      exact getD_append_left_nat _ _ f (by omega)
    have hwb : b = (compute_indices_go n k none 0 rows).2.getD (f + 1) 0 := by
      rw [hb_def]
      simp only [compute_indices_snd]
      exact getD_append_left_nat _ _ (f + 1) hc
    have hbd := compute_indices_go_boundary n k rows none f hc
    rw [← hwa, ← hwb] at hbd
    have hla : (rows.getD a []).length = n := hlen _ (mem_of_getD _ _ _ haM)
    have hlb : (rows.getD b []).length = n := hlen _ (mem_of_getD _ _ _ (by omega))
    have hbd' : ¬ (copy_index_except_axis (rows.getD a []) k =
        copy_index_except_axis (rows.getD b []) k) := by
      intro hcc
      rw [(indexEqExceptAxis_iff_copy_eq hla hlb hk).mpr hcc] at hbd
      cases hbd
    -- b - 1 is in fiber f
    have hmem := compute_indices_member n k rows f (b - 1) hf (by omega)
      (by omega)
    have hlbm : (rows.getD (b - 1) []).length = n :=
      hlen _ (mem_of_getD _ _ _ (by omega))
    have hmem' : copy_index_except_axis (rows.getD a []) k =
        copy_index_except_axis (rows.getD (b - 1) []) k :=
      (indexEqExceptAxis_iff_copy_eq hla hlbm hk).mp hmem
    -- contiguity between b-1, b and m
    have hcontig := proj_contiguous n k rows ord hk hlen hperm hlast hsort
      (b - 1) b m (by omega) (by omega) hmM (hmem'.symm.trans hcon.symm)
    exact hbd' (hmem'.trans hcontig.symm)
  · -- fiber f is the last one: b = M, so there is no such m
    have hfe : f + 1 = (compute_indices_go n k none 0 rows).2.length := by
      simp only [compute_indices_fst] at hf
      omega
    have hwb : b = rows.length := by
      rw [hb_def]
      simp only [compute_indices_snd]
      rw [hfe, getD_append_at_len]
    omega

end Pattie

namespace Pattie

theorem range'_concat (s m n : Nat) :
    List.range' s m ++ List.range' (s + m) n = List.range' s (m + n) := by
  have h := List.range'_append s m n 1
  simp only [one_mul] at h
  rw [Nat.add_comm m n]
  exact h

/-- A filter of `range M` by a predicate that holds exactly on `[a, b)`
is `range' a (b - a)`. -/
theorem filter_range_span (M a b : Nat) (p : Nat → Bool) (hab : a ≤ b)
    (hbM : b ≤ M) (hp : ∀ m, m < M → (p m = true ↔ (a ≤ m ∧ m < b))) :
    (List.range M).filter p = List.range' a (b - a) := by
  have hsplit : List.range' 0 a ++ List.range' a (b - a) ++
      List.range' b (M - b) = List.range M := by
    rw [show List.range' a (b - a) = List.range' (0 + a) (b - a) by
        rw [Nat.zero_add],
      range'_concat 0 a (b - a), show a + (b - a) = b by omega,
      show List.range' b (M - b) = List.range' (0 + b) (M - b) by
        rw [Nat.zero_add],
      range'_concat 0 b (M - b), show b + (M - b) = M by omega,
      List.range_eq_range']
  rw [← hsplit, List.filter_append, List.filter_append]
  have h1 : (List.range' 0 a).filter p = [] := by
    apply List.filter_eq_nil_iff.mpr
    intro x hx
    have hx' := List.mem_range'_1.mp hx
    intro hcon
    have := (hp x (by omega)).mp hcon
    omega
  have h2 : (List.range' a (b - a)).filter p = List.range' a (b - a) := by
    apply List.filter_eq_self.mpr
    intro x hx
    have hx' := List.mem_range'_1.mp hx
    exact (hp x (by omega)).mpr (by omega)
  have h3 : (List.range' b (M - b)).filter p = [] := by
    apply List.filter_eq_nil_iff.mpr
    intro x hx
    have hx' := List.mem_range'_1.mp hx
    intro hcon
    have := (hp x (by omega)).mp hcon
    omega
  rw [h1, h2, h3, List.nil_append, List.append_nil]

/-- Exactness of the fiber spans: under sortedness, a row projects onto
`out_indices[f]` exactly when its position lies in
`[fiber_offsets[f], fiber_offsets[f+1])`. -/
theorem fiber_span_exact (n k : Nat) (rows : List (List Int))
    (ord : List Nat) (hk : k < n) (hlen : ∀ r ∈ rows, r.length = n)
    (hperm : ord.Perm (List.range n)) (hlast : ord.getLast? = some k)
    (hsort : ∀ m, m + 1 < rows.length →
      lexLeB (keyOf ord (rows.getD m [])) (keyOf ord (rows.getD (m + 1) []))
        = true) :
    ∀ f m, f < (compute_indices n k rows).1.length → m < rows.length →
      (copy_index_except_axis (rows.getD m []) k =
          (compute_indices n k rows).1.getD f [] ↔
        ((compute_indices n k rows).2.getD f 0 ≤ m ∧
          m < (compute_indices n k rows).2.getD (f + 1) 0)) := by
  intro f m hf hm
  rw [compute_indices_outs_formula n k rows f hf]
  constructor
  · intro h
    by_cases h1 : m < (compute_indices n k rows).2.getD f 0
    · exact absurd h (fiber_excl_below n k rows ord hk hlen hperm hlast hsort
        f m hf h1)
    · by_cases h2 : m < (compute_indices n k rows).2.getD (f + 1) 0
      · exact ⟨by omega, h2⟩
      · exact absurd h (fiber_excl_above n k rows ord hk hlen hperm hlast
          hsort f m hf (by omega) hm)
  · intro ⟨h1, h2⟩
    have hmem := compute_indices_member n k rows f m hf h1 h2
    have hfacts := compute_indices_offsets_facts n k rows f hf
    have hla : (rows.getD ((compute_indices n k rows).2.getD f 0) []).length = n :=
      hlen _ (mem_of_getD _ _ _ (by omega))
    have hlm : (rows.getD m []).length = n := hlen _ (mem_of_getD _ _ _ hm)
    exact ((indexEqExceptAxis_iff_copy_eq hla hlm hk).mp hmem).symm

end Pattie

namespace Pattie

/-- The running sum of one output cell `(fiber, c)` over a list of
nonzero positions `js`:
`Σ_j A.values[j] * B.values[indices[j,k] - lower, c]`, folded left in
list order starting from zero. -/
def cellSum {VT : Type} (add mul : VT → VT → VT) (zero : VT)
    (tI : List (List Int)) (tV : List VT) (mV : List (List VT))
    (lower : Int) (k c : Nat) (js : List Nat) : VT :=
  js.foldl
    (fun v j =>
      add v (mul (tV.getD j zero)
        ((mV.getD (((tI.getD j []).getD k 0) - lower).toNat []).getD c zero)))
    zero

theorem foldl_fiberStep_getD {VT : Type} (add mul : VT → VT → VT)
    (zero : VT) (tI : List (List Int)) (tV : List VT)
    (mV : List (List VT)) (lower : Int) (k : Nat) :
    ∀ (js : List Nat) (row0 : List VT) (c : Nat), c < row0.length →
      ((js.foldl
        (fun row j => fiberStep add mul zero tI tV mV lower k j row)
        row0).getD c zero) =
      js.foldl
        (fun v j =>
          add v (mul (tV.getD j zero)
            ((mV.getD (((tI.getD j []).getD k 0) - lower).toNat []).getD c
              zero)))
        (row0.getD c zero) := by
  intro js
  induction js with
  | nil => intro row0 c _; rfl
  | cons j js ih =>
    intro row0 c hc
    rw [List.foldl_cons, List.foldl_cons]
    have hlen : (fiberStep add mul zero tI tV mV lower k j row0).length =
        row0.length := by
      simp [fiberStep]
    rw [ih (fiberStep add mul zero tI tV mV lower k j row0) c (by omega)]
    congr 1
    rw [List.getD_eq_getElem _ _ (by omega), List.getD_eq_getElem _ _ hc]
    simp only [fiberStep, List.getElem_mapIdx]

theorem getD_map_range {α : Type} (g : Nat → α) (F f : Nat) (d : α)
    (hf : f < F) : ((List.range F).map g).getD f d = g f := by
  rw [List.getD_eq_getElem _ _ (by simpa using hf), List.getElem_map,
    List.getElem_range]

/-- Reference accumulator taken from the spec's words: iterate over
every nonzero of `A` in storage order and scatter its contribution into
a dense accumulator indexed by the non-common coordinates (modelled as a
total function from compacted coordinate and column to value). -/
def scatter_accumulator {VT : Type} (add mul : VT → VT → VT) (zero : VT)
    (tI : List (List Int)) (tV : List VT) (mV : List (List VT))
    (lower : Int) (k : Nat) : List Int → Nat → VT :=
  (List.range tI.length).foldl
    (fun acc m => fun key c =>
      if key = copy_index_except_axis (tI.getD m []) k then
        add (acc key c)
          (mul (tV.getD m zero)
            ((mV.getD (((tI.getD m []).getD k 0) - lower).toNat []).getD c
              zero))
      else acc key c)
    (fun _ _ => zero)

/-- Reference result from the spec's words: after scattering, compact
the accumulator by reading it at each output index row in fiber order. -/
def naive_scatter_reference {VT : Type} (add mul : VT → VT → VT)
    (zero : VT) (tI : List (List Int)) (tV : List VT)
    (mV : List (List VT)) (lower : Int) (n k r : Nat) : List (List VT) :=
  (compute_indices n k tI).1.map fun key =>
    (List.range r).map fun c =>
      scatter_accumulator add mul zero tI tV mV lower k key c

theorem scatter_fold {VT : Type} (add mul : VT → VT → VT) (zero : VT)
    (tI : List (List Int)) (tV : List VT) (mV : List (List VT))
    (lower : Int) (k : Nat) :
    ∀ (ms : List Nat) (acc : List Int → Nat → VT) (key : List Int) (c : Nat),
      (ms.foldl
        (fun acc m => fun key c =>
          if key = copy_index_except_axis (tI.getD m []) k then
            add (acc key c)
              (mul (tV.getD m zero)
                ((mV.getD (((tI.getD m []).getD k 0) - lower).toNat
                  []).getD c zero))
          else acc key c)
        acc) key c =
      (ms.filter fun m =>
          decide (copy_index_except_axis (tI.getD m []) k = key)).foldl
        (fun v j =>
          add v (mul (tV.getD j zero)
            ((mV.getD (((tI.getD j []).getD k 0) - lower).toNat []).getD c
              zero)))
        (acc key c) := by
  intro ms
  induction ms with
  | nil => intro acc key c; rfl
  | cons m ms ih =>
    intro acc key c
    rw [List.foldl_cons]
    by_cases h : copy_index_except_axis (tI.getD m []) k = key
    · rw [List.filter_cons_of_pos (by simpa using h)]
      rw [List.foldl_cons, ih]
      congr 1
      rw [if_pos h.symm]
    · rw [List.filter_cons_of_neg (by simpa using h)]
      rw [ih]
      congr 1
      rw [if_neg (fun hc => h hc.symm)]

end Pattie

namespace Pattie

/-- C1: COO-TTM value correctness.  For a fully sparse tensor whose
index rows are lexicographically sorted with the common column as the
last sort key, each output cell of the serial kernel `compute_values`
equals the per-fiber running sum
`Σ_{m ∈ [fiber_offsets[f], fiber_offsets[f+1])}
  A.values[m] * B.values[indices[m,k] - lower, c]`, and this in turn
equals the naive reference that scatters every nonzero into a dense
accumulator indexed by the non-common coordinates and then compacts.
The value operations are abstract, so both equalities are
operation-by-operation (no algebraic law is used). -/
theorem coo_ttm_matches_naive_reference {VT : Type}
    (add mul : VT → VT → VT) (zero : VT) (n k r : Nat)
    (tI : List (List Int)) (tV : List VT) (mV : List (List VT))
    (lower : Int) (ord : List Nat) (hk : k < n)
    (hlen : ∀ row ∈ tI, row.length = n)
    (hperm : ord.Perm (List.range n)) (hlast : ord.getLast? = some k)
    (hsort : ∀ m, m + 1 < tI.length →
      lexLeB (keyOf ord (tI.getD m [])) (keyOf ord (tI.getD (m + 1) []))
        = true) :
    ∀ f c, f < (compute_indices n k tI).1.length → c < r →
      ((compute_values add mul zero tI tV mV lower k
          ((compute_indices n k tI).1.length) r
          ((compute_indices n k tI).2)).getD f []).getD c zero =
        cellSum add mul zero tI tV mV lower k c
          (List.range' ((compute_indices n k tI).2.getD f 0)
            ((compute_indices n k tI).2.getD (f + 1) 0 -
              (compute_indices n k tI).2.getD f 0)) ∧
      ((compute_values add mul zero tI tV mV lower k
          ((compute_indices n k tI).1.length) r
          ((compute_indices n k tI).2)).getD f []).getD c zero =
        ((naive_scatter_reference add mul zero tI tV mV lower n k r).getD
          f []).getD c zero := by
  intro f c hf hc
  have hkernel :
      ((compute_values add mul zero tI tV mV lower k
          ((compute_indices n k tI).1.length) r
          ((compute_indices n k tI).2)).getD f []).getD c zero =
        cellSum add mul zero tI tV mV lower k c
          (List.range' ((compute_indices n k tI).2.getD f 0)
            ((compute_indices n k tI).2.getD (f + 1) 0 -
              (compute_indices n k tI).2.getD f 0)) := by
    unfold compute_values
    rw [serial_fold_eq_parallel_map]
    rw [getD_map_range _ _ f [] hf]
    unfold fiberAccum
    rw [foldl_fiberStep_getD add mul zero tI tV mV lower k _ _ c
      (by simpa using hc)]
    rw [List.getD_eq_getElem _ _ (by simpa using hc),
      List.getElem_replicate]
    rfl
  refine ⟨hkernel, hkernel.trans ?_⟩
  -- the naive reference cell is the filtered cell sum
  have hnaive :
      ((naive_scatter_reference add mul zero tI tV mV lower n k r).getD
          f []).getD c zero =
        cellSum add mul zero tI tV mV lower k c
          ((List.range tI.length).filter fun m =>
            decide (copy_index_except_axis (tI.getD m []) k =
              (compute_indices n k tI).1.getD f [])) := by
    unfold naive_scatter_reference
    have h1 : ((compute_indices n k tI).1.map fun key =>
        (List.range r).map fun c =>
          scatter_accumulator add mul zero tI tV mV lower k key c).getD f []
        = (List.range r).map fun c =>
            scatter_accumulator add mul zero tI tV mV lower k
              ((compute_indices n k tI).1.getD f []) c := by
      rw [List.getD_eq_getElem _ _ (by simpa using hf), List.getElem_map]
      rw [List.getD_eq_getElem _ _ hf]
    rw [h1, getD_map_range _ _ c zero hc]
    unfold scatter_accumulator
    rw [scatter_fold]
    rfl
  rw [hnaive]
  -- and the filter is exactly the fiber span
  have hfacts := compute_indices_offsets_facts n k tI f hf
  have hspan := filter_range_span tI.length
    ((compute_indices n k tI).2.getD f 0)
    ((compute_indices n k tI).2.getD (f + 1) 0)
    (fun m => decide (copy_index_except_axis (tI.getD m []) k =
      (compute_indices n k tI).1.getD f []))
    (by omega) (by omega) ?_
  · rw [hspan]
  · intro m hm
    rw [decide_eq_true_eq]
    exact fiber_span_exact n k tI ord hk hlen hperm hlast hsort f m hf hm

/-- Witness for `coo_ttm_matches_naive_reference`: the 2-column tensor
with rows `[[0,0],[0,1],[1,0]]` (sorted under `ord = [0,1]`, common
column `k = 1`), integer values, and a 2×2 matrix. -/
theorem coo_ttm_matches_naive_reference_witness :
    ((1 : Nat) < 2 ∧ (∀ row ∈ [[(0 : Int), 0], [0, 1], [1, 0]], row.length = 2) ∧
      [0, 1].Perm (List.range 2) ∧ ([0, 1] : List Nat).getLast? = some 1 ∧
      (∀ m, m + 1 < ([[(0 : Int), 0], [0, 1], [1, 0]] : List (List Int)).length →
        lexLeB (keyOf [0, 1] (([[(0 : Int), 0], [0, 1], [1, 0]] :
            List (List Int)).getD m []))
          (keyOf [0, 1] (([[(0 : Int), 0], [0, 1], [1, 0]] :
            List (List Int)).getD (m + 1) [])) = true)) ∧
    ((compute_values (· + ·) (· * ·) (0 : Int)
        [[(0 : Int), 0], [0, 1], [1, 0]] [2, 3, 5] [[1, 10], [100, 1000]]
        0 1 (compute_indices 2 1 [[(0 : Int), 0], [0, 1], [1, 0]]).1.length 2
        (compute_indices 2 1 [[(0 : Int), 0], [0, 1], [1, 0]]).2).getD 0
        []).getD 1 0 =
      ((naive_scatter_reference (· + ·) (· * ·) (0 : Int)
        [[(0 : Int), 0], [0, 1], [1, 0]] [2, 3, 5] [[1, 10], [100, 1000]]
        0 2 1 2).getD 0 []).getD 1 0 :=
  ⟨⟨by decide, by decide, by decide, by decide, by
      intro m hm
      match m with
      | 0 => decide
      | 1 => decide
      | m + 2 => exact absurd hm (by
          simp only [List.length_cons, List.length_nil]
          omega)⟩,
   (coo_ttm_matches_naive_reference (· + ·) (· * ·) (0 : Int) 2 1 2
      [[(0 : Int), 0], [0, 1], [1, 0]] [2, 3, 5] [[1, 10], [100, 1000]] 0
      [0, 1] (by decide) (by decide) (by decide) (by decide)
      (by
        intro m hm
        match m with
        | 0 => decide
        | 1 => decide
        | m + 2 => exact absurd hm (by
          simp only [List.length_cons, List.length_nil]
          omega))
      0 1 (by decide) (by decide)).2⟩

end Pattie

namespace Pattie

/-! ## COOTensor data model and `COOTensorMulDenseMatrix::execute`
(`src/structs/tensor/coo.rs`, `src/algos/tensor_matrix/coo_mul_dense.rs`)

`values` (an `ndarray::ArrayD`) is modelled by its dimension vector and
its row-major data.  A dense matrix is a `COOTensor` with no sparse
axes, two dense axes and a single leading block, as produced by
`CreateRandomDenseMatrix`. -/

structure COOTensorM (VT : Type) where
  name : Option String
  shape : List Axis
  sparse_axes : List Axis
  dense_axes : List Axis
  indices : List (List Int)
  valuesDims : List Nat
  valuesData : List VT
  sparse_is_sorted : Bool
  sparse_sort_order : List Axis
deriving Repr, DecidableEq

/-- Fallback axis for guarded positional accesses. -/
def defaultAxis : Axis := ⟨0, none, 0, 0⟩

/-- `map_axes` for a single axis: the position of the first axis of
`axes` equal (by identity) to `ax`, if any. -/
def findAxisPos (ax : Axis) (axes : List Axis) : Option Nat :=
  axes.findIdx? fun a => axisBeq a ax

/-- `Option<&Axis>` equality, by axis identity. -/
def optAxisBeq : Option Axis → Option Axis → Bool
  | none, none => true
  | some a, some b => axisBeq a b
  | _, _ => false

/-- `COOTensor::sparse_sort_order`: the recorded order iff the tensor is
sorted. -/
def sparseSortOrder {VT : Type} (t : COOTensorM VT) : Option (List Axis) :=
  if t.sparse_is_sorted then some t.sparse_sort_order else none

/-- Rows of a row-major 2-d view: row `i` is `data[i*w .. i*w+w)`. -/
def chunkRows {VT : Type} (nrows w : Nat) (data : List VT) : List (List VT) :=
  (List.range nrows).map fun i => (data.drop (i * w)).take w

def exceptIsOk {ε α : Type} : Except ε α → Bool
  | .ok _ => true
  | .error _ => false

/-- `COOTensorMulDenseMatrix::execute`.  Checks (in source order): the
tensor is fully sparse; the matrix has 2 axes, all dense; the FIRST
dense axis of the matrix occurs in the tensor's sparse axes (this is the
common axis) while the second does not; the tensor is sorted and the
last axis of its sort order is the matrix's first dense axis.  Then it
groups fibers, accumulates values, and assembles the output —
whose `dense_axes` the source sets to `[common_axis]`
(`coo_mul_dense.rs` line 166), not to the matrix's free axis.  Panics
(`assert!`, `index_axis_move` on an empty array) are modelled as
errors; well-formed inputs never reach them. -/
def cooExecute {VT : Type} (add mul : VT → VT → VT) (zero : VT)
    (tensor matrix : COOTensorM VT) : Except String (COOTensorM VT) :=
  if tensor.dense_axes ≠ [] then
    .error "The tensor must be fully sparse."
  else if matrix.shape.length ≠ 2 then
    .error "The matrix must have 2 axes."
  else if matrix.sparse_axes ≠ [] then
    .error "The matrix must be fully dense."
  else
    match matrix.dense_axes with
    | [a0, a1] =>
      match findAxisPos a0 tensor.sparse_axes with
      | none => .error "axis not found"
      | some common_axis_index =>
        if (findAxisPos a1 tensor.sparse_axes).isSome then
          .error "There must be only one common axis."
        else
          match (if tensor.sparse_is_sorted then
              some tensor.sparse_sort_order else none) with
          | none => .error "The tensor must be sorted"
          | some sso =>
            if !(optAxisBeq sso.getLast? (matrix.dense_axes.head?)) then
              .error "The tensor must be sorted along the common axis."
            else if tensor.valuesDims.length ≠ 1 then
              .error "tensor values are not one-dimensional"
            else
              match matrix.valuesDims with
              | [mb, m0, m1] =>
                if mb = 0 then
                  .error "matrix has no dense block"
                else
                  let common_axis := a0
                  let matrixValues := chunkRows m0 m1 matrix.valuesData
                  let result_shape := tensor.shape.map fun ax =>
                    if axisBeq ax (matrix.shape.getD 0 defaultAxis) then
                      matrix.shape.getD 1 defaultAxis
                    else ax
                  let result_sparse_axes := tensor.sparse_axes.filter
                    fun ax => !(axisBeq ax common_axis)
                  let result_sort_order := sso.filter
                    fun ax => !(axisBeq ax common_axis)
                  let grouped := compute_indices tensor.sparse_axes.length
                    common_axis_index tensor.indices
                  let result_values := compute_values add mul zero
                    tensor.indices tensor.valuesData matrixValues
                    common_axis.lower common_axis_index grouped.1.length m1
                    grouped.2
                  .ok { name := none,
                        shape := result_shape,
                        sparse_axes := result_sparse_axes,
                        dense_axes := [common_axis],
                        indices := grouped.1,
                        valuesDims := [grouped.1.length, m1],
                        valuesData := result_values.flatten,
                        sparse_is_sorted := true,
                        sparse_sort_order := result_sort_order }
              | _ => .error "matrix values are not three-dimensional"
    | _ => .error "assertion failed: matrix must have 2 dense axes"

end Pattie

namespace Pattie

/-- C3 (code evaluation at a failing input): on a valid COO-TTM input —
tensor over axes `ax0, ax1` (sorted, `ax1` last), matrix over
`(ax1, axF)` so that `ax1` is the common axis and `axF` the free axis —
`execute` succeeds and produces the specified `shape`, `sparse_axes`,
`sparse_sort_order` and sorted flag, but sets `dense_axes` to
`[common axis ax1]` instead of the matrix's free axis `[axF]`
(`coo_mul_dense.rs` line 166), even though `ax1` and `axF` are distinct
axes and `ax1` does not occur in the output `shape`. -/
theorem coo_execute_output_dense_axes_bug :
    ((cooExecute (· + ·) (· * ·) (0 : Int)
        ⟨none, [⟨0, none, 0, 2⟩, ⟨1, none, 0, 3⟩],
          [⟨0, none, 0, 2⟩, ⟨1, none, 0, 3⟩], [],
          [[0, 0], [1, 2]], [2], [1, 2], true,
          [⟨0, none, 0, 2⟩, ⟨1, none, 0, 3⟩]⟩
        ⟨none, [⟨1, none, 0, 3⟩, ⟨2, none, 0, 2⟩], [],
          [⟨1, none, 0, 3⟩, ⟨2, none, 0, 2⟩], [],
          [1, 3, 2], [1, 1, 1, 1, 1, 1], true, []⟩).toOption.map
      fun c => (c.shape, c.sparse_axes, c.dense_axes, c.sparse_sort_order,
        c.sparse_is_sorted)) =
      some ([⟨0, none, 0, 2⟩, ⟨2, none, 0, 2⟩], [⟨0, none, 0, 2⟩],
        [⟨1, none, 0, 3⟩], [⟨0, none, 0, 2⟩], true) ∧
    axisBeq ⟨1, none, 0, 3⟩ ⟨2, none, 0, 2⟩ = false := by
  constructor
  · rfl
  · decide

end Pattie

namespace Pattie

/-- C7 counterexample: an input satisfying every precondition as the
claim states it — fully sparse tensor; 2-axis fully dense matrix;
exactly one axis of the matrix (its SECOND, `ax1`) occurs in the
tensor's sparse axes; tensor sorted with the common axis `ax1` as the
last sort key — on which `execute` nevertheless returns an error,
because the source requires the common axis to be the matrix's FIRST
dense axis. -/
theorem coo_execute_second_axis_common_errors :
    ((⟨none, [⟨0, none, 0, 2⟩, ⟨1, none, 0, 3⟩],
        [⟨0, none, 0, 2⟩, ⟨1, none, 0, 3⟩], [],
        [[0, 0], [1, 2]], [2], [1, 2], true,
        [⟨0, none, 0, 2⟩, ⟨1, none, 0, 3⟩]⟩ :
        COOTensorM Int).dense_axes = [] ∧
      (⟨none, [⟨2, none, 0, 2⟩, ⟨1, none, 0, 3⟩], [],
        [⟨2, none, 0, 2⟩, ⟨1, none, 0, 3⟩], [],
        [1, 2, 3], [1, 1, 1, 1, 1, 1], true, []⟩ :
        COOTensorM Int).shape.length = 2 ∧
      (⟨none, [⟨2, none, 0, 2⟩, ⟨1, none, 0, 3⟩], [],
        [⟨2, none, 0, 2⟩, ⟨1, none, 0, 3⟩], [],
        [1, 2, 3], [1, 1, 1, 1, 1, 1], true, []⟩ :
        COOTensorM Int).sparse_axes = [] ∧
      (([⟨2, none, 0, 2⟩, ⟨1, none, 0, 3⟩] : List Axis).filter
        (fun ax => (findAxisPos ax
          [⟨0, none, 0, 2⟩, ⟨1, none, 0, 3⟩]).isSome)).length = 1 ∧
      sparseSortOrder (⟨none, [⟨0, none, 0, 2⟩, ⟨1, none, 0, 3⟩],
        [⟨0, none, 0, 2⟩, ⟨1, none, 0, 3⟩], [],
        [[0, 0], [1, 2]], [2], [1, 2], true,
        [⟨0, none, 0, 2⟩, ⟨1, none, 0, 3⟩]⟩ : COOTensorM Int) =
        some [⟨0, none, 0, 2⟩, ⟨1, none, 0, 3⟩] ∧
      optAxisBeq (([⟨0, none, 0, 2⟩, ⟨1, none, 0, 3⟩] :
        List Axis).getLast?) (some ⟨1, none, 0, 3⟩) = true) ∧
    exceptIsOk (cooExecute (· + ·) (· * ·) (0 : Int)
      ⟨none, [⟨0, none, 0, 2⟩, ⟨1, none, 0, 3⟩],
        [⟨0, none, 0, 2⟩, ⟨1, none, 0, 3⟩], [],
        [[0, 0], [1, 2]], [2], [1, 2], true,
        [⟨0, none, 0, 2⟩, ⟨1, none, 0, 3⟩]⟩
      ⟨none, [⟨2, none, 0, 2⟩, ⟨1, none, 0, 3⟩], [],
        [⟨2, none, 0, 2⟩, ⟨1, none, 0, 3⟩], [],
        [1, 2, 3], [1, 1, 1, 1, 1, 1], true, []⟩) = false := by
  decide

/-- C7 (amended): `execute` is pure on its borrowed inputs and, for
well-formed inputs (values rank matches the axis partition; the matrix
carries one leading block), succeeds exactly when: the tensor has no
dense axes; the matrix has exactly 2 axes, all dense; the FIRST dense
axis of the matrix occurs (by identity) in the tensor's sparse axes and
the second does not; the tensor is sorted; and the last axis of its
sort order is the matrix's first dense axis. -/
theorem coo_execute_ok_iff {VT : Type} (add mul : VT → VT → VT) (zero : VT)
    (t m : COOTensorM VT)
    (hwf_t : t.dense_axes = [] → t.valuesDims.length = 1)
    (hwf_m : m.shape.length = 2 → m.sparse_axes = [] →
      m.dense_axes.length = 2 ∧ ∃ m0 m1, m.valuesDims = [1, m0, m1]) :
    exceptIsOk (cooExecute add mul zero t m) = true ↔
      (t.dense_axes = [] ∧ m.shape.length = 2 ∧ m.sparse_axes = [] ∧
        (findAxisPos (m.dense_axes.getD 0 defaultAxis)
          t.sparse_axes).isSome = true ∧
        findAxisPos (m.dense_axes.getD 1 defaultAxis) t.sparse_axes
          = none ∧
        t.sparse_is_sorted = true ∧
        optAxisBeq t.sparse_sort_order.getLast? m.dense_axes.head?
          = true) := by
  by_cases h1 : t.dense_axes = []
  · by_cases h2 : m.shape.length = 2
    · by_cases h3 : m.sparse_axes = []
      · obtain ⟨hdl, m0, m1, hvd⟩ := hwf_m h2 h3
        have hvt := hwf_t h1
        obtain ⟨a0, a1, hda⟩ := List.length_eq_two.mp hdl
        rcases hfind0 : findAxisPos a0 t.sparse_axes with _ | idx
        · simp [cooExecute, h1, h2, h3, hda, hfind0, exceptIsOk]
        · by_cases hfind1 : findAxisPos a1 t.sparse_axes = none
          · by_cases hsorted : t.sparse_is_sorted = true
            · by_cases hord : optAxisBeq t.sparse_sort_order.getLast?
                (some a0) = true
              · simp [cooExecute, h1, h2, h3, hda, hfind0, hfind1, hsorted,
                  hord, hvt, hvd, exceptIsOk]
              · simp [cooExecute, h1, h2, h3, hda, hfind0, hfind1, hsorted,
                  hord, exceptIsOk]
            · simp [cooExecute, h1, h2, h3, hda, hfind0, hfind1, hsorted,
                exceptIsOk]
          · have hfs : (findAxisPos a1 t.sparse_axes).isSome = true := by
              rcases hq : findAxisPos a1 t.sparse_axes with _ | v
              · exact absurd hq hfind1
              · rfl
            simp [cooExecute, h1, h2, h3, hda, hfs, hfind0, hfind1,
              exceptIsOk]
      · simp [cooExecute, h1, h2, h3, exceptIsOk]
    · simp [cooExecute, h1, h2, exceptIsOk]
  · simp [cooExecute, h1, exceptIsOk]

/-- Witness for `coo_execute_ok_iff`: the well-formedness hypotheses
hold at the concrete valid input of the success case, and `execute`
succeeds there. -/
theorem coo_execute_ok_iff_witness :
    exceptIsOk (cooExecute (· + ·) (· * ·) (0 : Int)
      ⟨none, [⟨0, none, 0, 2⟩, ⟨1, none, 0, 3⟩],
        [⟨0, none, 0, 2⟩, ⟨1, none, 0, 3⟩], [],
        [[0, 0], [1, 2]], [2], [1, 2], true,
        [⟨0, none, 0, 2⟩, ⟨1, none, 0, 3⟩]⟩
      ⟨none, [⟨1, none, 0, 3⟩, ⟨2, none, 0, 2⟩], [],
        [⟨1, none, 0, 3⟩, ⟨2, none, 0, 2⟩], [],
        [1, 3, 2], [1, 1, 1, 1, 1, 1], true, []⟩) = true :=
  (coo_execute_ok_iff (· + ·) (· * ·) (0 : Int)
      ⟨none, [⟨0, none, 0, 2⟩, ⟨1, none, 0, 3⟩],
        [⟨0, none, 0, 2⟩, ⟨1, none, 0, 3⟩], [],
        [[0, 0], [1, 2]], [2], [1, 2], true,
        [⟨0, none, 0, 2⟩, ⟨1, none, 0, 3⟩]⟩
      ⟨none, [⟨1, none, 0, 3⟩, ⟨2, none, 0, 2⟩], [],
        [⟨1, none, 0, 3⟩, ⟨2, none, 0, 2⟩], [],
        [1, 3, 2], [1, 1, 1, 1, 1, 1], true, []⟩
      (fun _ => by decide) (fun _ _ => by exact ⟨by decide, 3, 2, by decide⟩)).mpr
    (by decide)

end Pattie

namespace Pattie

/-! ## Text tensor reader (`src/io/read_coo.rs`, `src/io/lineno_reader.rs`)

The byte stream is a pure `List Nat`; `LineNumberReader` becomes an
explicit state (remaining input, 1-based line/column, one-byte peek
slot).  I/O never fails in the pure model, so the reader's `IOError`
variant is unreachable; running out of fuel is reported by a dedicated
model-only variant.  The `expect`/`found` payloads of `TokenizeError`
and the source text of `FromUtf8Error` are not modelled, only the error
kind and position. -/

structure RState where
  input : List Nat
  line : Nat
  col : Nat
  peek : Option (Option Nat)
deriving Repr, DecidableEq

/-- `LineNumberReader::line_column`: pre-advances past a pending peeked
byte. -/
def lineColumn (s : RState) : Nat × Nat :=
  match s.peek with
  | some (some b) => if b = 10 then (s.line + 1, 1) else (s.line, s.col + 1)
  | _ => (s.line, s.col)

/-- `LineNumberReader::peek_byte`. -/
def peekByte (s : RState) : Option Nat × RState :=
  match s.peek with
  | some p => (p, s)
  | none =>
    match s.input with
    | [] => (none, { s with peek := some none })
    | b :: rest => (some b, { s with input := rest, peek := some (some b) })

/-- `LineNumberReader::read_byte`.  When no peek is pending the source
reads from the inner reader without touching line/column; the reader in
`read_coo.rs` always peeks first, so that quirk is never observable. -/
def readByte (s : RState) : Option Nat × RState :=
  match s.peek with
  | some (some b) =>
    if b = 10 then (some b, { s with peek := none, line := s.line + 1, col := 1 })
    else (some b, { s with peek := none, col := s.col + 1 })
  | some none => (none, { s with peek := none })
  | none =>
    match s.input with
    | [] => (none, s)
    | b :: rest => (some b, { s with input := rest })

inductive TensorReadError where
  | fromUtf8Error (line col : Nat)
  | indexOutOfBoundError (line col : Nat)
  | ioError (line col : Nat)
  | tokenizeError (line col : Nat)
  | valueError (line col : Nat) (value : List Nat)
  | unreachableError
  | fuelOut
deriving Repr, DecidableEq

structure TokenMask where
  eof : Bool
  new_line : Bool
  comment : Bool
  value : Bool
deriving Repr, DecidableEq

inductive Tok where
  | eof
  | newLine
  | comment
  | value (bytes : List Nat)
deriving Repr, DecidableEq

def isTokEof : Tok → Bool
  | .eof => true
  | _ => false

/-- One step of Rust's UTF-8 validation automaton: `pending`
continuation bytes remain, the next of which must lie in
`[lo, hi]`. -/
def validUtf8Go : Nat → Nat → Nat → List Nat → Bool
  | 0, _, _, [] => true
  | _ + 1, _, _, [] => false
  | 0, _, _, b :: rest =>
    if b < 128 then validUtf8Go 0 0 0 rest
    else if 194 ≤ b && b ≤ 223 then validUtf8Go 1 128 191 rest
    else if b = 224 then validUtf8Go 2 160 191 rest
    else if 225 ≤ b && b ≤ 236 then validUtf8Go 2 128 191 rest
    else if b = 237 then validUtf8Go 2 128 159 rest
    else if 238 ≤ b && b ≤ 239 then validUtf8Go 2 128 191 rest
    else if b = 240 then validUtf8Go 3 144 191 rest
    else if 241 ≤ b && b ≤ 243 then validUtf8Go 3 128 191 rest
    else if b = 244 then validUtf8Go 3 128 143 rest
    else false
  | p + 1, lo, hi, b :: rest =>
    if lo ≤ b && b ≤ hi then validUtf8Go p 128 191 rest else false

def validUtf8 (l : List Nat) : Bool := validUtf8Go 0 0 0 l

def parseDigitsGo (acc : Nat) : List Nat → Option Nat
  | [] => some acc
  | b :: rest =>
    if 48 ≤ b && b ≤ 57 then parseDigitsGo (acc * 10 + (b - 48)) rest
    else none

/-- `usize::from_str` on a token: optional `+`, then one or more ASCII
digits (overflow is not modelled). -/
def parseNatTok : List Nat → Option Nat
  | [] => none
  | 43 :: rest => if rest.isEmpty then none else parseDigitsGo 0 rest
  | l => parseDigitsGo 0 l

/-- Signed-integer `from_str` on a token (the index type `IT`). -/
def parseIntTok : List Nat → Option Int
  | [] => none
  | 43 :: rest =>
    if rest.isEmpty then none else (parseDigitsGo 0 rest).map Int.ofNat
  | 45 :: rest =>
    if rest.isEmpty then none
    else (parseDigitsGo 0 rest).map fun x => -(Int.ofNat x)
  | l => (parseDigitsGo 0 l).map Int.ofNat

def read_next_comment : Nat → RState → Except TensorReadError RState
  | 0, _ => .error .fuelOut
  | fuel + 1, s =>
    match peekByte s with
    | (some 10, s1) | (some 13, s1) => .ok (readByte s1).2
    | (some _, s1) => read_next_comment fuel (readByte s1).2
    | (none, s1) => .ok s1

def read_next_value_go (acc : List Nat) : Nat → RState →
    Except TensorReadError (List Nat × RState)
  | 0, _ => .error .fuelOut
  | fuel + 1, s =>
    match peekByte s with
    | (some 9, s1) | (some 10, s1) | (some 13, s1) | (some 32, s1)
    | (some 35, s1) => .ok (acc, s1)
    | (some b, s1) => read_next_value_go (acc ++ [b]) fuel (readByte s1).2
    | (none, s1) => .ok (acc, s1)

def read_next_value (fuel : Nat) (s : RState) :
    Except TensorReadError (List Nat × RState) :=
  let lc := lineColumn s
  match read_next_value_go [] fuel s with
  | .error e => .error e
  | .ok (bytes, s1) =>
    if validUtf8 bytes then .ok (bytes, s1)
    else .error (.fromUtf8Error lc.1 lc.2)

def read_next_token (expect : TokenMask) : Nat → RState →
    Except TensorReadError (Tok × RState)
  | 0, _ => .error .fuelOut
  | fuel + 1, s =>
    let lc := lineColumn s
    match peekByte s with
    | (some 9, s1) | (some 32, s1) =>
      read_next_token expect fuel (readByte s1).2
    | (some 10, s1) =>
      if expect.new_line then .ok (.newLine, (readByte s1).2)
      else .error (.tokenizeError lc.1 lc.2)
    | (some 13, s1) =>
      let s2 := (readByte s1).2
      match peekByte s2 with
      | (some 10, s3) => .ok (.newLine, (readByte s3).2)
      | (_, s3) => .ok (.newLine, s3)
    | (some 35, s1) =>
      if expect.comment then
        match read_next_comment fuel s1 with
        | .error e => .error e
        | .ok s2 => .ok (.comment, s2)
      else .error (.tokenizeError lc.1 lc.2)
    | (some _, s1) =>
      if expect.value then
        match read_next_value fuel s1 with
        | .error e => .error e
        | .ok (v, s2) => .ok (.value v, s2)
      else .error (.tokenizeError lc.1 lc.2)
    | (none, s1) =>
      if expect.eof then .ok (.eof, s1)
      else .error (.tokenizeError lc.1 lc.2)

def read_until_token (expect skip : TokenMask) : Nat → RState →
    Except TensorReadError (Tok × RState)
  | 0, _ => .error .fuelOut
  | fuel + 1, s =>
    let sk : TokenMask :=
      ⟨skip.eof || expect.eof, skip.new_line || expect.new_line,
       skip.comment || expect.comment, skip.value || expect.value⟩
    match read_next_token sk fuel s with
    | .error e => .error e
    | .ok (.eof, s1) =>
      if expect.eof then .ok (.eof, s1)
      else read_until_token expect skip fuel s1
    | .ok (.newLine, s1) =>
      if expect.new_line then .ok (.newLine, s1)
      else read_until_token expect skip fuel s1
    | .ok (.comment, s1) =>
      if expect.comment then .ok (.comment, s1)
      else read_until_token expect skip fuel s1
    | .ok (.value v, s1) =>
      if expect.value then .ok (.value v, s1)
      else read_until_token expect skip fuel s1

end Pattie

namespace Pattie

/-- Axes of the header: one `AxisBuilder::new().range(lo..hi).build()`
per dimension, ids minted from the running counter. -/
def buildAxes (counter : Nat) : List Int → List Int → List Axis
  | [], _ => []
  | _, [] => []
  | lo :: ls, hi :: hs =>
    (buildAxis none lo hi counter).1 :: buildAxes (counter + 1) ls hs

/-- `COOTensor::zeros(shape, all-sparse)`: no blocks, every axis sparse,
vacuously sorted with the axes as sort order, values of shape `[0]`. -/
def zerosM {VT : Type} (shape : List Axis) : COOTensorM VT :=
  { name := none, shape := shape, sparse_axes := shape, dense_axes := [],
    indices := [], valuesDims := [0], valuesData := [],
    sparse_is_sorted := true, sparse_sort_order := shape }

/-- `COOTensor::push_block` for a fully sparse tensor: appends the row
and the scalar, bumps the leading extent, and clears
`sparse_is_sorted` (`clear_sparse_sort_order`).  The length/range
asserts of the source hold at the only call site. -/
def push_block {VT : Type} (t : COOTensorM VT) (row : List Int) (x : VT) :
    COOTensorM VT :=
  { t with
    sparse_is_sorted := false,
    indices := t.indices ++ [row],
    valuesDims := match t.valuesDims with
      | d0 :: ds => (d0 + 1) :: ds
      | [] => [],
    valuesData := t.valuesData ++ [x] }

/-- The per-line bound loops of the header (`skipValue` distinguishes
the upper-bound loop, whose skip mask also admits values). -/
def read_bounds (skipValue : Bool) : Nat → Bool → Nat → RState →
    Except TensorReadError (List Int × RState)
  | 0, _, _, s => .ok ([], s)
  | cnt + 1, isFirst, fuel, s =>
    let lc := lineColumn s
    match read_until_token ⟨false, false, false, true⟩
        ⟨false, isFirst, true, skipValue⟩ fuel s with
    | .error e => .error e
    | .ok (.value v, s1) =>
      match parseIntTok v with
      | none => .error (.valueError lc.1 lc.2 v)
      | some x =>
        match read_bounds skipValue cnt false fuel s1 with
        | .error e => .error e
        | .ok (xs, s2) => .ok (x :: xs, s2)
    | .ok (_, _) => .error .unreachableError

/-- One element line's index coordinates: each is parsed and checked
against its axis's half-open range (`axis.range().contains(idx)`);
`none` reports end of file reached at the first coordinate. -/
def read_index_row : List Axis → Bool → Nat → RState →
    Except TensorReadError (Option (List Int) × RState)
  | [], _, _, s => .ok (some [], s)
  | ax :: axes, isFirst, fuel, s =>
    let lc := lineColumn s
    match read_until_token ⟨isFirst, false, false, true⟩
        ⟨false, isFirst, true, false⟩ fuel s with
    | .error e => .error e
    | .ok (.eof, s1) => .ok (none, s1)
    | .ok (.value v, s1) =>
      match parseIntTok v with
      | none => .error (.valueError lc.1 lc.2 v)
      | some idx =>
        if ax.lower ≤ idx ∧ idx < ax.upper then
          match read_index_row axes false fuel s1 with
          | .error e => .error e
          | .ok (none, s2) => .ok (none, s2)
          | .ok (some rest, s2) => .ok (some (idx :: rest), s2)
        else .error (.indexOutOfBoundError lc.1 lc.2)
    | .ok (_, _) => .error .unreachableError

/-- The element loop (`'a: loop`): read a coordinate row (or break on
EOF), read and parse the value token, `push_block`, repeat. -/
def read_elements {VT : Type} (parse : List Nat → Option VT)
    (shape : List Axis) : Nat → COOTensorM VT → RState →
    Except TensorReadError (COOTensorM VT)
  | 0, _, _ => .error .fuelOut
  | fuel + 1, t, s =>
    match read_index_row shape true fuel s with
    | .error e => .error e
    | .ok (none, _) => .ok t
    | .ok (some row, s1) =>
      let lc := lineColumn s1
      match read_until_token ⟨false, false, false, true⟩
          ⟨false, false, true, false⟩ fuel s1 with
      | .error e => .error e
      | .ok (.value v, s2) =>
        match parse v with
        | none => .error (.valueError lc.1 lc.2 v)
        | some x => read_elements parse shape fuel (push_block t row x) s2
      | .ok (_, _) => .error .unreachableError

/-- `COOTensor::read_from_text` over a byte list.
`counter` is the axis-id counter state; `fuel` bounds every loop. -/
def read_from_text {VT : Type} (parse : List Nat → Option VT)
    (counter fuel : Nat) (input : List Nat) :
    Except TensorReadError (COOTensorM VT) :=
  let s0 : RState := ⟨input, 1, 1, none⟩
  let lc := lineColumn s0
  match read_until_token ⟨false, false, false, true⟩
      ⟨false, true, true, false⟩ fuel s0 with
  | .error e => .error e
  | .ok (.value v, s1) =>
    match parseNatTok v with
    | none => .error (.valueError lc.1 lc.2 v)
    | some ndim =>
      match read_until_token ⟨ndim == 0, true, false, false⟩
          ⟨false, true, true, false⟩ fuel s1 with
      | .error e => .error e
      | .ok (tok1, s2) =>
        match read_bounds false ndim true fuel s2 with
        | .error e => .error e
        | .ok (lows, s3) =>
          match (if isTokEof tok1 then .ok (true, s3) else
              match read_until_token ⟨ndim == 0, true, false, false⟩
                  ⟨false, false, true, false⟩ fuel s3 with
              | .error e => .error e
              | .ok (tok2, s4) => .ok (isTokEof tok2, s4) :
              Except TensorReadError (Bool × RState)) with
          | .error e => .error e
          | .ok (eof2, s4) =>
            match read_bounds true ndim true fuel s4 with
            | .error e => .error e
            | .ok (highs, s5) =>
              match (if eof2 then .ok (true, s5) else
                  match read_until_token ⟨ndim == 0, true, false, false⟩
                      ⟨false, false, true, false⟩ fuel s5 with
                  | .error e => .error e
                  | .ok (tok3, s6) => .ok (isTokEof tok3, s6) :
                  Except TensorReadError (Bool × RState)) with
              | .error e => .error e
              | .ok (eof3, s6) =>
                let shape := buildAxes counter lows highs
                let t0 : COOTensorM VT := zerosM shape
                if eof3 then .ok t0
                else read_elements parse shape fuel t0 s6
  | .ok (_, _) => .error .unreachableError

end Pattie

namespace Pattie

/-- The per-coordinate range predicate of a stored index row. -/
def rowInRange (shape : List Axis) (r : List Int) : Prop :=
  r.length = shape.length ∧
  ∀ i, i < shape.length →
    (shape.getD i defaultAxis).lower ≤ r.getD i 0 ∧
    r.getD i 0 < (shape.getD i defaultAxis).upper

/-- Every coordinate row accepted by `read_index_row` lies inside the
half-open range of its axis. -/
theorem read_index_row_in_range :
    ∀ (axes : List Axis) (isFirst : Bool) (fuel : Nat) (s s' : RState)
      (row : List Int),
      read_index_row axes isFirst fuel s = .ok (some row, s') →
      rowInRange axes row := by
  intro axes
  induction axes with
  | nil =>
    intro isFirst fuel s s' row h
    simp only [read_index_row] at h
    rw [Except.ok.injEq, Prod.mk.injEq] at h
    obtain ⟨h1, _⟩ := h
    obtain rfl : row = [] := (Option.some.inj h1).symm
    exact ⟨rfl, fun i hi => by simp at hi⟩
  | cons ax axes ih =>
    intro isFirst fuel s s' row h
    simp only [read_index_row] at h
    split at h
    · cases h
    · cases h
    · rename_i v s1 heq
      split at h
      · cases h
      · rename_i idx hparse
        split at h
        · rename_i hrange
          split at h
          · cases h
          · cases h
          · rename_i rest s2 hrec
            rw [Except.ok.injEq, Prod.mk.injEq] at h
            obtain ⟨h1, _⟩ := h
            obtain rfl : row = idx :: rest := (Option.some.inj h1).symm
            have hr := ih false fuel s1 s2 rest hrec
            refine ⟨by simp [hr.1], ?_⟩
            intro i hi
            match i with
            | 0 => simpa using hrange
            | i + 1 =>
              have := hr.2 i (by simpa using hi)
              simpa using this
        · cases h
    · cases h

/-- Invariant of the element loop: the axis metadata is untouched, the
sorted flag is cleared exactly when a block is pushed, and every stored
row remains inside the ranges of `shape`. -/
theorem read_elements_invariant {VT : Type} (parse : List Nat → Option VT)
    (shape : List Axis) :
    ∀ (fuel : Nat) (t t' : COOTensorM VT) (s : RState),
      read_elements parse shape fuel t s = .ok t' →
      (t'.shape = t.shape ∧ t'.sparse_axes = t.sparse_axes ∧
        t'.dense_axes = t.dense_axes ∧
        t'.sparse_sort_order = t.sparse_sort_order) ∧
      ((t'.indices = t.indices ∧
          t'.sparse_is_sorted = t.sparse_is_sorted) ∨
        (t'.sparse_is_sorted = false ∧ t'.indices ≠ [])) ∧
      ((∀ r ∈ t.indices, rowInRange shape r) →
        ∀ r ∈ t'.indices, rowInRange shape r) := by
  intro fuel
  induction fuel with
  | zero => intro t t' s h; cases h
  | succ fuel ih =>
    intro t t' s h
    simp only [read_elements] at h
    split at h
    · cases h
    · rw [Except.ok.injEq] at h
      obtain rfl : t = t' := h
      exact ⟨⟨rfl, rfl, rfl, rfl⟩, Or.inl ⟨rfl, rfl⟩, fun hp => hp⟩
    · rename_i row s1 hrow
      split at h
      · cases h
      · rename_i v s2 hval
        split at h
        · cases h
        · rename_i x hparse
          have hih := ih (push_block t row x) t' s2 h
          refine ⟨hih.1, ?_, ?_⟩
          · rcases hih.2.1 with ⟨hind, hsor⟩ | hr
            · refine Or.inr ⟨?_, ?_⟩
              · rw [hsor]; rfl
              · rw [hind]
                simp [push_block]
            · exact Or.inr hr
          · intro hp
            apply hih.2.2
            intro r hr
            simp only [push_block, List.mem_append, List.mem_singleton] at hr
            rcases hr with hr | rfl
            · exact hp r hr
            · exact read_index_row_in_range shape true fuel s s1 r hrow
      · cases h

end Pattie

namespace Pattie

instance exceptDecEq {ε α : Type} [DecidableEq ε] [DecidableEq α] :
    DecidableEq (Except ε α) := fun x y =>
  match x, y with
  | .ok a, .ok b =>
    if h : a = b then .isTrue (by rw [h])
    else .isFalse (by intro hc; cases hc; exact h rfl)
  | .error a, .error b =>
    if h : a = b then .isTrue (by rw [h])
    else .isFalse (by intro hc; cases hc; exact h rfl)
  | .ok _, .error _ => .isFalse (by intro hc; cases hc)
  | .error _, .ok _ => .isFalse (by intro hc; cases hc)

/-- A successful read is either the empty tensor straight from the
header, or the element loop run on it. -/
theorem read_ok_cases {VT : Type} (parse : List Nat → Option VT)
    (counter fuel : Nat) (input : List Nat) (t : COOTensorM VT)
    (h : read_from_text parse counter fuel input = .ok t) :
    ∃ shape : List Axis, t = zerosM shape ∨
      ∃ s : RState, read_elements parse shape fuel (zerosM shape) s = .ok t := by
  simp only [read_from_text] at h
  split at h
  · cases h
  · rename_i v s1 hv
    split at h
    · cases h
    · rename_i ndim hndim
      split at h
      · cases h
      · rename_i tok1 s2 htok1
        split at h
        · cases h
        · rename_i lows s3 hlows
          split at h
          · cases h
          · rename_i eof2 s4 heof2
            split at h
            · cases h
            · rename_i highs s5 hhighs
              split at h
              · cases h
              · rename_i eof3 s6 heof3
                split at h
                · rw [Except.ok.injEq] at h
                  exact ⟨buildAxes counter lows highs, Or.inl h.symm⟩
                · exact ⟨buildAxes counter lows highs, Or.inr ⟨s6, h⟩⟩
  · cases h

/-- An unsorted tensor (`sparse_sort_order()` returns nothing) can never
pass `execute`'s sort check: every path returns an error. -/
theorem cooExecute_unsorted_errors {VT : Type} (add mul : VT → VT → VT)
    (zero : VT) (t m : COOTensorM VT) (h : t.sparse_is_sorted = false) :
    exceptIsOk (cooExecute add mul zero t m) = false := by
  simp only [cooExecute, h, Bool.false_eq_true, if_false]
  repeat' split
  all_goals rfl

end Pattie

namespace Pattie

/-- C10: every tensor returned by a successful `read_from_text` is fully
sparse (no dense axes, every axis sparse); a read that stored at least
one element has cleared `sparse_is_sorted` (because `push_block` clears
it unconditionally), so its `sparse_sort_order()` is `None` and COO-TTM
fails on it until it is sorted; a read with no element lines returns the
empty tensor, still vacuously sorted. -/
theorem read_tensor_fully_sparse_sorted_iff_empty {VT : Type}
    (parse : List Nat → Option VT) (counter fuel : Nat)
    (input : List Nat) (t : COOTensorM VT)
    (h : read_from_text parse counter fuel input = .ok t) :
    t.dense_axes = [] ∧ t.sparse_axes = t.shape ∧
    (t.indices = [] → t.sparse_is_sorted = true ∧
      sparseSortOrder t = some t.sparse_sort_order) ∧
    (t.indices ≠ [] → t.sparse_is_sorted = false ∧
      sparseSortOrder t = none ∧
      ∀ (add mul : VT → VT → VT) (zero : VT) (m : COOTensorM VT),
        exceptIsOk (cooExecute add mul zero t m) = false) := by
  obtain ⟨shape, hcase⟩ := read_ok_cases parse counter fuel input t h
  rcases hcase with rfl | ⟨s, hel⟩
  · refine ⟨rfl, rfl, ?_, ?_⟩
    · intro _
      exact ⟨rfl, rfl⟩
    · intro hcon
      exact absurd rfl hcon
  · obtain ⟨⟨hsh, hsp, hde, hso⟩, hflag, _⟩ :=
      read_elements_invariant parse shape fuel (zerosM shape) t s hel
    refine ⟨by rw [hde]; rfl, by rw [hsp, hsh]; simp [zerosM], ?_, ?_⟩
    · intro hemp
      rcases hflag with ⟨_, hsor⟩ | ⟨_, hne⟩
      · refine ⟨by rw [hsor]; simp [zerosM], ?_⟩
        simp [sparseSortOrder, hsor, zerosM]
      · exact absurd hemp hne
    · intro hne
      rcases hflag with ⟨hind, _⟩ | ⟨hsor, _⟩
      · rw [hind] at hne
        exact absurd rfl hne
      · exact ⟨hsor, by simp [sparseSortOrder, hsor],
          fun add mul zero m => cooExecute_unsorted_errors add mul zero t m hsor⟩

/-- Witness for `read_tensor_fully_sparse_sorted_iff_empty`: a one-axis
file with a single element line. -/
theorem read_tensor_fully_sparse_sorted_iff_empty_witness :
    read_from_text parseIntTok 0 64
      [49, 10, 48, 10, 53, 10, 50, 32, 55, 10] =
      .ok ⟨none, [⟨0, none, 0, 5⟩], [⟨0, none, 0, 5⟩], [], [[2]], [1], [7],
        false, [⟨0, none, 0, 5⟩]⟩ ∧
    (⟨none, [⟨0, none, 0, 5⟩], [⟨0, none, 0, 5⟩], [], [[2]], [1], [7],
        false, [⟨0, none, 0, 5⟩]⟩ : COOTensorM Int).dense_axes = [] ∧
    sparseSortOrder (⟨none, [⟨0, none, 0, 5⟩], [⟨0, none, 0, 5⟩], [],
      [[2]], [1], [7], false, [⟨0, none, 0, 5⟩]⟩ : COOTensorM Int) = none :=
  ⟨by decide,
   (read_tensor_fully_sparse_sorted_iff_empty parseIntTok 0 64
      [49, 10, 48, 10, 53, 10, 50, 32, 55, 10] _ (by decide)).1,
   ((read_tensor_fully_sparse_sorted_iff_empty parseIntTok 0 64
      [49, 10, 48, 10, 53, 10, 50, 32, 55, 10] _ (by decide)).2.2.2
      (by decide)).2.1⟩

/-- C8: index-bound checking in the reader.  (1) Every tensor returned
by a successful `read_from_text` has all stored coordinates inside the
half-open range of their axis.  (2) On the family of one-axis files
`"1\x0a0\x0a5\x0a<d> 7\x0a"` with a single-digit coordinate `d`, the
reader returns `IndexOutOfBoundError` at line 4, column 1 exactly when
`d` violates `0 <= d < 5`, and succeeds otherwise. -/
theorem read_coo_index_bounds :
    (∀ (VT : Type) (parse : List Nat → Option VT) (counter fuel : Nat)
      (input : List Nat) (t : COOTensorM VT),
      read_from_text parse counter fuel input = .ok t →
      ∀ r ∈ t.indices, rowInRange t.shape r) ∧
    (∀ d : Fin 10,
      (5 ≤ d.val →
        read_from_text parseIntTok 0 64
          [49, 10, 48, 10, 53, 10, 48 + d.val, 32, 55, 10] =
          .error (.indexOutOfBoundError 4 1)) ∧
      (d.val < 5 →
        exceptIsOk (read_from_text parseIntTok 0 64
          [49, 10, 48, 10, 53, 10, 48 + d.val, 32, 55, 10]) = true)) := by
  constructor
  · intro VT parse counter fuel input t h r hr
    obtain ⟨shape, hcase⟩ := read_ok_cases parse counter fuel input t h
    rcases hcase with rfl | ⟨s, hel⟩
    · cases hr
    · obtain ⟨⟨hsh, _, _, _⟩, _, hpres⟩ :=
        read_elements_invariant parse shape fuel (zerosM shape) t s hel
      rw [hsh]
      exact hpres (fun r hr => by cases hr) r hr
  · decide

/-- Witness for `read_coo_index_bounds`: part (1) applied to a concrete
successful read, part (2) applied at `d = 7`. -/
theorem read_coo_index_bounds_witness :
    (∀ r ∈ ((⟨none, [⟨0, none, 0, 5⟩], [⟨0, none, 0, 5⟩], [], [[2]], [1],
        [7], false, [⟨0, none, 0, 5⟩]⟩ : COOTensorM Int)).indices,
      rowInRange [⟨0, none, 0, 5⟩] r) ∧
    (5 ≤ (7 : Fin 10).val ∧
      read_from_text parseIntTok 0 64
        [49, 10, 48, 10, 53, 10, 48 + (7 : Fin 10).val, 32, 55, 10] =
        .error (.indexOutOfBoundError 4 1)) :=
  ⟨read_coo_index_bounds.1 Int parseIntTok 0 64
      [49, 10, 48, 10, 53, 10, 50, 32, 55, 10] _ (by decide),
   by decide, (read_coo_index_bounds.2 7).1 (by decide)⟩

end Pattie
